import Mathlib

/-!
Verification development for the chunked icon dataset access engine:
the `LRUCache` utility (src/utils/LRUCache.js, re-exported through
src/index.js) and the `ChunkedIconAPI` class (src/services/api.js).

The JavaScript runtime model is embedded shallowly:
* a JS `Map` is an insertion-ordered association list (`List (K × V)`);
  `Map.set` on an existing key updates the value in place, otherwise appends;
* a JS `Set` is an insertion-ordered duplicate-free list;
* `Array.prototype.sort` is a stable sort (guaranteed since ES2019), modelled
  by a stable insertion sort driven by the JS comparator;
* network fetches of the static chunk files are a pure environment value
  (`Network`); a failed fetch or a JSON decode error is `none`;
* `async`/`await` scheduling inside one call is sequential in source order
  (single-threaded event loop; `Promise.all` of a batch joins before the next
  step), so batched loads collapse to a left-to-right fold;
* thrown exceptions are `Except.error`.

Strings: record fields are ASCII in this dataset, so JS `length`,
`substring`, `toLowerCase`, `trim`, `includes` and `replace` are modelled
on the character list `String.data` (for ASCII, UTF-16 length = char count).
-/

/-! ### JS Map / Set primitives -/

/-- JS `Map.prototype.get`: first (unique) entry with the key. -/
def jsMapGet {K V : Type} [DecidableEq K] : List (K × V) → K → Option V
  | [], _ => none
  | (k', v) :: rest, k => if k' = k then some v else jsMapGet rest k

/-- JS `Map.prototype.has`. -/
def jsMapHas {K V : Type} [DecidableEq K] (m : List (K × V)) (k : K) : Bool :=
  (jsMapGet m k).isSome

/-- JS `Map.prototype.set`: update in place (keeping insertion position) if the
key is present, otherwise append at the end. -/
def jsMapSet {K V : Type} [DecidableEq K] : List (K × V) → K → V → List (K × V)
  | [], k, v => [(k, v)]
  | (k', v') :: rest, k, v =>
    if k' = k then (k, v) :: rest else (k', v') :: jsMapSet rest k v

/-- JS `Map.prototype.delete` (the key part, value returned separately). -/
def jsMapDel {K V : Type} [DecidableEq K] : List (K × V) → K → List (K × V)
  | [], _ => []
  | (k', v') :: rest, k =>
    if k' = k then rest else (k', v') :: jsMapDel rest k

/-- JS `Set.prototype.add`: append unless already present. -/
def jsSetAdd {α : Type} [DecidableEq α] (s : List α) (x : α) : List α :=
  if x ∈ s then s else s ++ [x]

/-- `array.splice(array.indexOf(k), 1)`: remove the first occurrence of `k`
(no change when `k` is absent, matching `indexOf` returning `-1`). -/
def removeFirst {α : Type} [DecidableEq α] : List α → α → List α
  | [], _ => []
  | x :: xs, k => if x = k then xs else x :: removeFirst xs k

/-! ### LRUCache (src/utils/LRUCache.js) -/

/-- The `LRUCache` class state: `maxSize`, the backing `Map`, and the
`accessOrder` array (head = least recently used). -/
structure LRUCache (K V : Type) where
  maxSize : Nat
  cache : List (K × V)
  accessOrder : List K
deriving DecidableEq, Repr

variable {K V : Type}

/-- `new LRUCache(maxSize)`. -/
def LRUCache.empty (maxSize : Nat) : LRUCache K V :=
  { maxSize := maxSize, cache := [], accessOrder := [] }

/-- `moveToEnd(key)`: splice the key out of `accessOrder` and push it. -/
def LRUCache.moveToEnd [DecidableEq K] (c : LRUCache K V) (k : K) : LRUCache K V :=
  { c with accessOrder := removeFirst c.accessOrder k ++ [k] }

/-- `get(key)`: on a hit, promote to most-recently-used and return the value. -/
def LRUCache.get [DecidableEq K] (c : LRUCache K V) (k : K) :
    Option V × LRUCache K V :=
  if jsMapHas c.cache k then (jsMapGet c.cache k, c.moveToEnd k)
  else (none, c)

/-- `set(key, value)`: update-and-promote on an existing key; otherwise evict
the head of `accessOrder` when full (`size >= maxSize`), then insert.  When
`accessOrder` is empty, `shift()` yields `undefined` and the `Map.delete`
is a no-op, exactly as in the source. -/
def LRUCache.set [DecidableEq K] (c : LRUCache K V) (k : K) (v : V) :
    LRUCache K V :=
  if jsMapHas c.cache k then
    { c with cache := jsMapSet c.cache k v,
             accessOrder := removeFirst c.accessOrder k ++ [k] }
  else
    if c.cache.length ≥ c.maxSize then
      match c.accessOrder with
      | [] =>
        { c with cache := jsMapSet c.cache k v, accessOrder := [k] }
      | lru :: rest =>
        { c with cache := jsMapSet (jsMapDel c.cache lru) k v,
                 accessOrder := rest ++ [k] }
    else
      { c with cache := jsMapSet c.cache k v,
               accessOrder := c.accessOrder ++ [k] }

/-- `has(key)` (no promotion). -/
def LRUCache.hasKey [DecidableEq K] (c : LRUCache K V) (k : K) : Bool :=
  jsMapHas c.cache k

/-- `delete(key)`. -/
def LRUCache.delete [DecidableEq K] (c : LRUCache K V) (k : K) :
    Bool × LRUCache K V :=
  if jsMapHas c.cache k then
    (true, { c with cache := jsMapDel c.cache k,
                    accessOrder := removeFirst c.accessOrder k })
  else (false, c)

/-- `clear()`. -/
def LRUCache.clear (c : LRUCache K V) : LRUCache K V :=
  { maxSize := c.maxSize, cache := [], accessOrder := [] }

/-- Keys of the backing map, in insertion order. -/
def cacheKeys (c : LRUCache K V) : List K := c.cache.map Prod.fst

/-- One public cache operation (claim C2 quantifies over sequences of these). -/
inductive CacheOp where
  | get (k : Nat)
  | set (k : Nat) (v : Nat)
  | has (k : Nat)
  | del (k : Nat)
  | clear
deriving DecidableEq, Repr

/-- Apply one operation to a `Nat`-keyed cache (chunk caches key by the string
`chunk-n`, a bijective tag of the chunk number, so keys are modelled as the
chunk numbers themselves). -/
def applyOp (c : LRUCache Nat Nat) : CacheOp → LRUCache Nat Nat
  | CacheOp.get k => (c.get k).2
  | CacheOp.set k v => c.set k v
  | CacheOp.has _ => c
  | CacheOp.del k => (c.delete k).2
  | CacheOp.clear => c.clear

/-- Apply a sequence of operations, left to right. -/
def applyOps (c : LRUCache Nat Nat) (ops : List CacheOp) : LRUCache Nat Nat :=
  ops.foldl applyOp c

/-- Insert the keys of `ks` in order with `set k k` (claim C1's
"insert capacity+1 distinct keys"). -/
def insertAll (c : LRUCache Nat Nat) (ks : List Nat) : LRUCache Nat Nat :=
  ks.foldl (fun a k => a.set k k) c

/-! ### JS string operations, on `String.data` -/

/-- JS `toLowerCase` (ASCII). -/
def jsLower (s : String) : String := String.mk (s.data.map Char.toLower)

/-- Character-list core of JS `trim`. -/
def trimChars (l : List Char) : List Char :=
  ((l.dropWhile Char.isWhitespace).reverse.dropWhile Char.isWhitespace).reverse

/-- JS `trim`. -/
def jsTrim (s : String) : String := String.mk (trimChars s.data)

/-- Does `l` start with `p`? -/
def startsWithB : List Char → List Char → Bool
  | [], _ => true
  | _ :: _, [] => false
  | p :: ps, c :: cs => p == c && startsWithB ps cs

/-- Does `l` contain `sub` as a contiguous run? -/
def hasSubB (sub : List Char) : List Char → Bool
  | [] => startsWithB sub []
  | c :: cs => startsWithB sub (c :: cs) || hasSubB sub cs

/-- JS `String.prototype.includes`. -/
def jsIncludes (hay sub : String) : Bool := hasSubB sub.data hay.data

/-- Character-list core of JS `String.prototype.replace` with a string
pattern: replace only the first occurrence (an empty pattern matches at the
start, as in JS). -/
def replaceFirstChars : List Char → List Char → List Char → List Char
  | [], pat, repl => if startsWithB pat [] then repl else []
  | c :: cs, pat, repl =>
    if startsWithB pat (c :: cs) then repl ++ (c :: cs).drop pat.length
    else c :: replaceFirstChars cs pat repl

/-- JS `s.replace(pat, repl)` with a string pattern. -/
def jsReplaceFirst (s pat repl : String) : String :=
  String.mk (replaceFirstChars s.data pat.data repl.data)

/-- JS `name.replace(/[-_]/g, ' ')`. -/
def sepToSpace (s : String) : String :=
  String.mk (s.data.map (fun c => if c == '-' || c == '_' then ' ' else c))

/-- JS `name.replace(/[-_\s]/g, '')`. -/
def sepRemoved (s : String) : String :=
  String.mk (s.data.filter (fun c => !(c == '-' || c == '_' || c.isWhitespace)))

/-- `searchTerm.toLowerCase().trim()`. -/
def jsQuery (t : String) : String := jsTrim (jsLower t)

/-! ### Data model -/

/-- A full icon record as stored in a chunk file (always carries
`svgContent`). -/
structure Record where
  id : String
  name : String
  category : String
  filename : String
  tags : List String
  svgContent : String
deriving DecidableEq, Repr

/-- The metadata projection stored in `iconMetadata` (no `svgContent`). -/
structure RecordMetadata where
  id : String
  name : String
  category : String
  tags : List String
  filename : String
deriving DecidableEq, Repr

/-- The metadata object built by `indexIconsFromChunk` for one icon. -/
def metadataOf (icon : Record) : RecordMetadata :=
  { id := icon.id, name := icon.name, category := icon.category,
    tags := icon.tags, filename := icon.filename }

/-- A value flowing out of `getFullIconData`: either a full record from a
chunk, or (fallback path) a bare metadata object. -/
inductive IconData where
  | full (r : Record)
  | meta (m : RecordMetadata)
deriving DecidableEq, Repr

/-- `icon.category` on either shape (JS duck typing). -/
def dataCategory : IconData → String
  | IconData.full r => r.category
  | IconData.meta m => m.category

/-- `icon.name` on either shape. -/
def dataName : IconData → String
  | IconData.full r => r.name
  | IconData.meta m => m.name

/-- The decoded `chunks-index.json` (only the fields the engine reads). -/
structure ChunksIndex where
  total_icons : Nat
  chunk_size : Nat
  total_chunks : Nat
deriving DecidableEq, Repr

/-- The static-file environment: `chunkFiles[n-1]` is the decoded content of
`chunks/icons-n.json` (`none` = fetch or decode failure), the chunk index with
its API fallback, and the per-attempt result of fetching
`category-chunks.json` (attempt-indexed to model transient failures). -/
structure Network where
  chunkFiles : List (Option (List Record))
  chunksIndexFile : Option ChunksIndex
  chunksInfoAPI : Option ChunksIndex
  categoryAttempts : Nat → Option (List (String × List Nat))

/-- `fetch(STATIC_BASE + "/chunks/icons-" + n + ".json")` followed by JSON
decode. Chunk files exist only for 1-indexed chunk numbers. -/
def Network.fetchChunk (net : Network) (n : Nat) : Option (List Record) :=
  if 1 ≤ n then net.chunkFiles.getD (n - 1) none else none

/-- The chunk index obtainable by `loadChunksIndex`: the static file, else the
`/api/chunks-info` fallback. -/
def Network.effIndex (net : Network) : Option ChunksIndex :=
  match net.chunksIndexFile with
  | some i => some i
  | none => net.chunksInfoAPI

/-- Errors thrown out of the engine. -/
inductive ApiError where
  | manifestUnavailable
  | recordNotFound
deriving DecidableEq, Repr

/-- The mutable fields of the `ChunkedIconAPI` singleton. -/
structure APIState where
  chunksIndex : Option ChunksIndex
  loadedChunks : LRUCache Nat (List Record)
  categoryChunks : Option (List (String × List Nat))
  searchIndex : List (String × List String)
  iconMetadata : List (String × RecordMetadata)
  iconToChunk : List (String × Nat)
deriving DecidableEq, Repr

/-- `new ChunkedIconAPI()` (chunk cache capacity 50). -/
def initialState : APIState :=
  { chunksIndex := none, loadedChunks := LRUCache.empty 50,
    categoryChunks := none, searchIndex := [], iconMetadata := [],
    iconToChunk := [] }

/-! ### Search indexing (`indexIconsFromChunk`) -/

/-- `searchIndex.get(term).add(id)` with the `new Set()` initialisation. -/
def idxAdd (idx : List (String × List String)) (t : String) (id : String) :
    List (String × List String) :=
  match jsMapGet idx t with
  | some s => jsMapSet idx t (jsSetAdd s id)
  | none => idx ++ [(t, [id])]

/-- `term.substring(0, i)`. -/
def termPrefix (t : String) (i : Nat) : String := String.mk (t.data.take i)

/-- Index one search term: the term itself, then every partial
`term.substring(0, i)` for `i = 2 .. term.length`; terms of length `<= 1`
are skipped (`term && term.length > 1`). -/
def indexTerm (idx : List (String × List String)) (term : String)
    (id : String) : List (String × List String) :=
  if 1 < term.data.length then
    (List.range' 2 (term.data.length - 1)).foldl
      (fun a i => idxAdd a (termPrefix term i) id) (idxAdd idx term id)
  else idx

/-- The `searchTerms` array built for one icon (name, category, tags,
filename with `.svg` replaced away, and the two separator variants). -/
def searchTermsOf (icon : Record) : List String :=
  [jsLower icon.name, jsLower icon.category]
  ++ icon.tags.map jsLower
  ++ [jsReplaceFirst (jsLower icon.filename) ".svg" "",
      sepToSpace (jsLower icon.name),
      sepRemoved (jsLower icon.name)]

/-- The per-icon body of `indexIconsFromChunk`: store metadata, store the
id→chunk mapping, then index every search term. -/
def indexIcon (st : APIState) (icon : Record) (n : Nat) : APIState :=
  { st with
    iconMetadata := jsMapSet st.iconMetadata icon.id (metadataOf icon),
    iconToChunk := jsMapSet st.iconToChunk icon.id n,
    searchIndex := (searchTermsOf icon).foldl
      (fun idx t => indexTerm idx t icon.id) st.searchIndex }

/-- `indexIconsFromChunk(icons, chunkNumber)`. -/
def indexIconsFromChunk (st : APIState) (icons : List Record) (n : Nat) :
    APIState :=
  icons.foldl (fun a icon => indexIcon a icon n) st

/-! ### Chunk loading -/

/-- `loadChunk(chunkNumber)`: serve from the LRU cache when present
(promoting the key); otherwise fetch, cache, and index, returning `[]` and
leaving all state untouched when the fetch or decode fails. -/
def loadChunk (fetch : Nat → Option (List Record)) (s : APIState) (n : Nat) :
    List Record × APIState :=
  if jsMapHas s.loadedChunks.cache n then
    ((jsMapGet s.loadedChunks.cache n).getD [],
     { s with loadedChunks := (s.loadedChunks.get n).2 })
  else
    match fetch n with
    | some chunk =>
      let s1 := { s with loadedChunks := s.loadedChunks.set n chunk }
      (chunk, indexIconsFromChunk s1 chunk n)
    | none => ([], s)

/-- Load a list of chunk numbers left to right, collecting the contents
(the batched `Promise.all` loop of `getIcons`/`searchIcons`, which joins each
batch before the next, collapsed to its sequential semantics). -/
def loadChunksList (fetch : Nat → Option (List Record)) (s : APIState) :
    List Nat → List (List Record) × APIState
  | [] => ([], s)
  | n :: rest =>
    let r1 := loadChunk fetch s n
    let r2 := loadChunksList fetch r1.2 rest
    (r1.1 :: r2.1, r2.2)

/-! ### Manifest loading -/

/-- `loadChunksIndex()`: cached, else static file, else API fallback, else
throw (`Could not load chunks information`). -/
def loadChunksIndex (net : Network) (s : APIState) :
    Except ApiError ChunksIndex × APIState :=
  match s.chunksIndex with
  | some i => (Except.ok i, s)
  | none =>
    match net.effIndex with
    | some i => (Except.ok i, { s with chunksIndex := some i })
    | none => (Except.error ApiError.manifestUnavailable, s)

/-- `loadCategoryChunks(retryCount)`: cached (a cached `{}` is truthy!), else
fetch; on failure retry while `retryCount < 3` after a delay of
`1000 * (retryCount + 1)` ms, else cache and return the empty mapping.
The middle component records the delays awaited, in order.  The recursion
decreases on the `fuel` argument, kept equal to `4 - retryCount` by
`loadCategoryChunks` below; on every input the result agrees with the
JS recursion (whenever `retryCount < 3` the fuel is still positive). -/
def loadCategoryChunksAux (net : Network) (s : APIState) :
    Nat → Nat → List (String × List Nat) × List Nat × APIState
  | retryCount, fuel =>
    match s.categoryChunks with
    | some m => (m, [], s)
    | none =>
      match net.categoryAttempts retryCount with
      | some m => (m, [], { s with categoryChunks := some m })
      | none =>
        match fuel with
        | fuel2 + 1 =>
          if retryCount < 3 then
            let r := loadCategoryChunksAux net s (retryCount + 1) fuel2
            (r.1, 1000 * (retryCount + 1) :: r.2.1, r.2.2)
          else ([], [], { s with categoryChunks := some [] })
        | 0 => ([], [], { s with categoryChunks := some [] })

/-- `loadCategoryChunks(retryCount)` (see `loadCategoryChunksAux`). -/
def loadCategoryChunks (net : Network) (s : APIState) (retryCount : Nat) :
    List (String × List Nat) × List Nat × APIState :=
  loadCategoryChunksAux net s retryCount (4 - retryCount)

/-! ### searchIcons -/

/-- Collect matched icon ids: every index entry whose key contains the query
as a substring contributes its id set, deduplicated in insertion order. -/
def matchedIds (idx : List (String × List String)) (query : String) :
    List String :=
  idx.foldl
    (fun acc p => if jsIncludes p.1 query then p.2.foldl jsSetAdd acc else acc)
    []

/-- The search comparator: exact name matches first, then ascending name
length (`a.name.length - b.name.length`). -/
def searchCmp (query : String) (a b : RecordMetadata) : Int :=
  let aM := jsIncludes (jsLower a.name) query
  let bM := jsIncludes (jsLower b.name) query
  if aM && !bM then -1
  else if !aM && bM then 1
  else (a.name.data.length : Int) - (b.name.data.length : Int)

/-- Stable insertion of `x` after every element already placed that compares
`<= 0` against it (the unique stable-sort order for a consistent
comparator). -/
def jsSortInsert {α : Type} (cmp : α → α → Int) (x : α) : List α → List α
  | [] => [x]
  | y :: ys => if cmp y x ≤ 0 then y :: jsSortInsert cmp x ys else x :: y :: ys

/-- `Array.prototype.sort(cmp)` (stable, ES2019). -/
def jsSort {α : Type} (cmp : α → α → Int) (l : List α) : List α :=
  l.foldl (fun acc x => jsSortInsert cmp x acc) []

/-- The sorted candidate metadata list for a query (before `slice(0, limit)`). -/
def searchCandidates (s : APIState) (query : String) : List RecordMetadata :=
  jsSort (searchCmp query)
    ((matchedIds s.searchIndex query).filterMap
      (fun id => jsMapGet s.iconMetadata id))

/-- The distinct chunk numbers backing the candidates (`requiredChunks`;
a falsy — absent or `0` — mapping contributes nothing). -/
def requiredChunksOf (s : APIState) (ms : List RecordMetadata) : List Nat :=
  ms.foldl
    (fun acc m =>
      match jsMapGet s.iconToChunk m.id with
      | some n => if n = 0 then acc else jsSetAdd acc n
      | none => acc)
    []

/-- `loadedChunks.entries()` / `.values()` scan: first record with the id in
any cached chunk, in the map's insertion order (no LRU promotion). -/
def findInLoadedChunks (cache : List (Nat × List Record)) (iconId : String) :
    Option Record :=
  match cache with
  | [] => none
  | (_, chunkData) :: rest =>
    match chunkData.find? (fun r => r.id == iconId) with
    | some r => some r
    | none => findInLoadedChunks rest iconId

/-- The shared fallback of `getFullIconData` when no (truthy) chunk mapping
exists: scan cached chunks, else return the bare metadata (possibly
`undefined`, i.e. `none`). -/
def getFullIconDataFallback (s : APIState) (iconId : String) :
    Option IconData × APIState :=
  match findInLoadedChunks s.loadedChunks.cache iconId with
  | some r => (some (IconData.full r), s)
  | none => ((jsMapGet s.iconMetadata iconId).map IconData.meta, s)

/-- `getFullIconData(iconId)`: follow the chunk mapping when truthy
(`if (chunkNumber)` — the number `0` is falsy in JS) and return
`chunk.find(...)`, which is dropped upstream when `undefined`. -/
def getFullIconData (fetch : Nat → Option (List Record)) (s : APIState)
    (iconId : String) : Option IconData × APIState :=
  match jsMapGet s.iconToChunk iconId with
  | some n =>
    if n = 0 then getFullIconDataFallback s iconId
    else
      let r1 := loadChunk fetch s n
      ((r1.1.find? (fun r => r.id == iconId)).map IconData.full, r1.2)
  | none => getFullIconDataFallback s iconId

/-- The resolution loop of `searchIcons`: push each truthy `getFullIconData`
result, silently skipping falsy ones. -/
def resolveAll (fetch : Nat → Option (List Record)) (s : APIState) :
    List RecordMetadata → List IconData × APIState
  | [] => ([], s)
  | m :: rest =>
    let r1 := getFullIconData fetch s m.id
    let r2 := resolveAll fetch r1.2 rest
    match r1.1 with
    | some icon => (icon :: r2.1, r2.2)
    | none => (r2.1, r2.2)

/-- The body of `searchIcons` after the guard: compute candidates, slice to
`limit`, pre-load the required chunks, then resolve each candidate. -/
def searchResolve (fetch : Nat → Option (List Record)) (s : APIState)
    (query : String) (limit : Nat) : List IconData × APIState :=
  let metadataResults := (searchCandidates s query).take limit
  let req := requiredChunksOf s metadataResults
  let r1 := loadChunksList fetch s req
  resolveAll fetch r1.2 metadataResults

/-- `searchIcons(searchTerm, limit)`: the guard
`!searchTerm || searchTerm.length < 2` returns `[]` on an absent term or a
raw length below 2 (an empty string has length 0, so the falsiness test adds
nothing); only afterwards is the term lowercased and trimmed. -/
def searchIcons (fetch : Nat → Option (List Record)) (s : APIState)
    (searchTerm : Option String) (limit : Nat) : List IconData × APIState :=
  match searchTerm with
  | none => ([], s)
  | some t =>
    if t.data.length < 2 then ([], s)
    else searchResolve fetch s (jsQuery t) limit

/-! ### getIcons / getIcon -/

/-- `category && category !== 'all'`: the active category filter, if any. -/
def catTruthy : Option String → Option String
  | some cat => if cat == "" || cat == "all" then none else some cat
  | none => none

/-- The legacy linear-scan search predicate (name, category, or a tag
contains the lowercased search string). -/
def legacyMatch (r : Record) (q : String) : Bool :=
  jsIncludes (jsLower r.name) q || jsIncludes (jsLower r.category) q ||
    r.tags.any (fun tag => jsIncludes (jsLower tag) q)

/-- The chunked path of `getIcons`: load the manifest, pick the target chunk
numbers (category map, else the first `ceil(limit / 50)`), batch-load them,
concatenate, filter, and slice. -/
def getIconsChunkPath (net : Network) (s : APIState) (limit : Nat)
    (category search : Option String) :
    Except ApiError (List IconData) × APIState :=
  match loadChunksIndex net s with
  | (Except.error e, s1) => (Except.error e, s1)
  | (Except.ok idx, s1) =>
    let step2 : List Nat × APIState :=
      match catTruthy category with
      | some cat =>
        let r := loadCategoryChunks net s1 0
        ((jsMapGet r.1 (jsLower cat)).getD [], r.2.2)
      | none =>
        (List.range' 1 (min ((limit + 49) / 50) idx.total_chunks), s1)
    let r3 := loadChunksList net.fetchChunk step2.2 step2.1
    let allIcons0 : List Record := r3.1.flatten
    let allIcons1 : List Record :=
      match catTruthy category with
      | some cat => allIcons0.filter (fun r => jsLower r.category == jsLower cat)
      | none => allIcons0
    let allIcons2 : List Record :=
      match search with
      | some t =>
        if t != "" && r3.2.searchIndex.length = 0 then
          allIcons1.filter (fun r => legacyMatch r (jsLower t))
        else allIcons1
      | none => allIcons1
    (Except.ok ((allIcons2.take limit).map IconData.full), r3.2)

/-- The instant-search branch of `getIcons`: `searchIcons(search, limit * 2)`,
an optional category filter, then `slice(0, limit)`. -/
def getIconsSearchPath (net : Network) (s : APIState) (limit : Nat)
    (category : Option String) (t : String) :
    Except ApiError (List IconData) × APIState :=
  let r1 := searchIcons net.fetchChunk s (some t) (limit * 2)
  let filtered :=
    match catTruthy category with
    | some cat => r1.1.filter (fun d => jsLower (dataCategory d) == jsLower cat)
    | none => r1.1
  (Except.ok (filtered.take limit), r1.2)

/-- `getIcons(params)`: the instant-search branch requires a truthy `search`
and a non-empty search index, else the chunked path runs. -/
def getIcons (net : Network) (s : APIState) (limit : Nat)
    (category search : Option String) :
    Except ApiError (List IconData) × APIState :=
  match search with
  | some t =>
    if t != "" && 0 < s.searchIndex.length then
      getIconsSearchPath net s limit category t
    else getIconsChunkPath net s limit category search
  | none => getIconsChunkPath net s limit category search

/-- The ascending scan of `getIcon`: `loadChunk(i)` for each chunk number in
turn, returning at the first chunk containing the id. -/
def scanChunksList (net : Network) (s : APIState) (iconId : String) :
    List Nat → Option Record × APIState
  | [] => (none, s)
  | n :: rest =>
    let r1 := loadChunk net.fetchChunk s n
    match r1.1.find? (fun r => r.id == iconId) with
    | some r => (some r, r1.2)
    | none => scanChunksList net r1.2 iconId rest

/-- The slow path of `getIcon` (no truthy chunk mapping): scan the cached
chunks, then load the manifest and scan chunks `1 .. total_chunks`,
throwing `Icon not found` when exhausted. -/
def getIconSlow (net : Network) (s : APIState) (iconId : String) :
    Except ApiError (Option Record) × APIState :=
  match findInLoadedChunks s.loadedChunks.cache iconId with
  | some r => (Except.ok (some r), s)
  | none =>
    match loadChunksIndex net s with
    | (Except.error e, s1) => (Except.error e, s1)
    | (Except.ok idx, s1) =>
      match scanChunksList net s1 iconId (List.range' 1 idx.total_chunks) with
      | (some r, s2) => (Except.ok (some r), s2)
      | (none, s2) => (Except.error ApiError.recordNotFound, s2)

/-- `getIcon(iconId)`: fast path through `iconToChunk` when the mapping is
truthy (the returned `chunk.find(...)` may be `undefined`); otherwise the
slow path. -/
def getIcon (net : Network) (s : APIState) (iconId : String) :
    Except ApiError (Option Record) × APIState :=
  match jsMapGet s.iconToChunk iconId with
  | some n =>
    if n = 0 then getIconSlow net s iconId
    else
      let r1 := loadChunk net.fetchChunk s n
      (Except.ok (r1.1.find? (fun r => r.id == iconId)), r1.2)
  | none => getIconSlow net s iconId

/-! ### Consistency invariants of the reachable engine states -/

/-- Does the fetched content of chunk `n` contain a record with this id? -/
def chunkHasIdB (fetch : Nat → Option (List Record)) (n : Nat) (id : String) :
    Bool :=
  match fetch n with
  | some chunk => chunk.any (fun r => r.id == id)
  | none => false

/-- Is `m` the metadata projection of a record of some chunk file? -/
def provenMetaB (net : Network) (m : RecordMetadata) : Bool :=
  net.chunkFiles.any (fun o => (o.getD []).any (fun r => metadataOf r == m))

/-- Does the locator map this id to a usable (nonzero) chunk number? -/
def locatedB (s : APIState) (id : String) : Bool :=
  match jsMapGet s.iconToChunk id with
  | some n => decide (1 ≤ n)
  | none => false

/-- Every locator entry points at a 1-indexed chunk whose current file
contains the id. -/
abbrev LocatorSound (net : Network) (s : APIState) : Prop :=
  ∀ p ∈ s.iconToChunk, 1 ≤ p.2 ∧ chunkHasIdB net.fetchChunk p.2 p.1 = true

/-- Every cached chunk equals its current file content. -/
abbrev CacheSound (net : Network) (s : APIState) : Prop :=
  ∀ q ∈ s.loadedChunks.cache, net.fetchChunk q.1 = some q.2

/-- Every record of a cached chunk has a locator entry. -/
abbrev CacheLocated (s : APIState) : Prop :=
  ∀ q ∈ s.loadedChunks.cache, ∀ r ∈ q.2,
    (jsMapGet s.iconToChunk r.id).isSome = true

/-- Every metadata entry is keyed by its own id, is located, and is the
projection of a record of some chunk file. -/
abbrev MetaSound (net : Network) (s : APIState) : Prop :=
  ∀ p ∈ s.iconMetadata,
    p.2.id = p.1 ∧ (jsMapGet s.iconToChunk p.1).isSome = true ∧
      provenMetaB net p.2 = true

/-- Every metadata entry has a truthy locator entry (stable-index states
still satisfy this; claim C5 needs nothing more). -/
abbrev MetaLocated (s : APIState) : Prop :=
  ∀ p ∈ s.iconMetadata, locatedB s p.1 = true

/-- A cached chunk index agrees with the environment. -/
def IndexCons (net : Network) (s : APIState) : Prop :=
  ∀ i, s.chunksIndex = some i → net.effIndex = some i

/-- The conjunction of the per-map soundness invariants (all hold in states
reached by loading against an unchanged set of static files). -/
abbrev Coherent (net : Network) (s : APIState) : Prop :=
  LocatorSound net s ∧ CacheSound net s ∧ CacheLocated s ∧ MetaSound net s

/-- Record ids are globally unique across the chunk files (the data-model
invariant of the build tooling). -/
abbrev UniqueIds (net : Network) : Prop :=
  (net.chunkFiles.map (fun o => (o.getD []).map Record.id)).flatten.Nodup

/-- The ordering the search comparator establishes on names: a name
containing the query never follows one that does not, and names with the
same containment status are in ascending length order. -/
def rankedBefore (query : String) (a b : String) : Prop :=
  (jsIncludes (jsLower a) query = jsIncludes (jsLower b) query →
    a.data.length ≤ b.data.length)
  ∧ (jsIncludes (jsLower a) query = true ∨ jsIncludes (jsLower b) query = false)

/-- Structural well-formedness of an `LRUCache`: the map has no duplicate
keys and `accessOrder` is a permutation of them (holds in every reachable
cache state; claim C2's induction carries it). -/
def CacheInv (c : LRUCache Nat Nat) : Prop :=
  (cacheKeys c).Nodup ∧ c.accessOrder.Perm (cacheKeys c)

/-- The records `loadChunk n` yields against an unchanged environment:
the file content, or `[]` when the fetch fails. -/
def contentOf (net : Network) (n : Nat) : List Record :=
  (net.fetchChunk n).getD []

/-- The id set the search index holds for a term (`[]` when unmapped). -/
def idsFor (idx : List (String × List String)) (t : String) : List String :=
  (jsMapGet idx t).getD []

/-! ### Concrete witness data -/

/-- Test record `home` (claim C3's scenario). -/
def recHome : Record :=
  { id := "home", name := "home", category := "ui", filename := "home.svg",
    tags := [], svgContent := "<svg>h</svg>" }

/-- Test record `home-outline`. -/
def recHomeOutline : Record :=
  { id := "home-outline", name := "home-outline", category := "ui",
    filename := "home-outline.svg", tags := [], svgContent := "<svg>o</svg>" }

/-- Test record `homework`. -/
def recHomework : Record :=
  { id := "homework", name := "homework", category := "ui",
    filename := "homework.svg", tags := [], svgContent := "<svg>w</svg>" }

/-- Test record `ab` (claim C10's witness). -/
def recAb : Record :=
  { id := "ab", name := "ab", category := "ui", filename := "ab.svg",
    tags := [], svgContent := "<svg>a</svg>" }

/-- A two-chunk environment holding the three `home*` records. -/
def netHome : Network :=
  { chunkFiles := [some [recHome], some [recHomeOutline, recHomework]],
    chunksIndexFile := some { total_icons := 3, chunk_size := 50, total_chunks := 2 },
    chunksInfoAPI := none,
    categoryAttempts := fun _ => none }

/-- The engine state after loading both chunks of `netHome`. -/
def stateHome : APIState :=
  (loadChunk netHome.fetchChunk
    (loadChunk netHome.fetchChunk initialState 1).2 2).2

/-- A one-chunk environment holding only `recAb`. -/
def netAb : Network :=
  { chunkFiles := [some [recAb]],
    chunksIndexFile := some { total_icons := 1, chunk_size := 50, total_chunks := 1 },
    chunksInfoAPI := none,
    categoryAttempts := fun _ => none }

/-- The engine state after loading chunk 1 of `netAb`. -/
def stateAb : APIState :=
  (loadChunk netAb.fetchChunk initialState 1).2

/-- An environment whose only chunk file fails to fetch. -/
def netFail : Network :=
  { chunkFiles := [none],
    chunksIndexFile := some { total_icons := 0, chunk_size := 50, total_chunks := 1 },
    chunksInfoAPI := none,
    categoryAttempts := fun _ => none }

/-- The recovered environment for the refetch half of claim C6. -/
def netRecovered : Network :=
  { chunkFiles := [some [recAb]],
    chunksIndexFile := some { total_icons := 1, chunk_size := 50, total_chunks := 1 },
    chunksInfoAPI := none,
    categoryAttempts := fun _ => none }

/-- A stale-index state: metadata and locator name an id (`ghost`) that the
current chunk 1 no longer contains (claim C5's dropped candidate). -/
def stateStale : APIState :=
  { chunksIndex := none, loadedChunks := LRUCache.empty 50,
    categoryChunks := none,
    searchIndex := [("ghost", ["ghost"])],
    iconMetadata := [("ghost",
      { id := "ghost", name := "ghost", category := "ui", tags := [],
        filename := "ghost.svg" })],
    iconToChunk := [("ghost", 1)] }

/-- An environment whose chunk 1 exists but is empty (the `ghost` id is
gone), and whose category manifest succeeds only on the fourth attempt
(claim C7's counterexample). -/
def netFourth : Network :=
  { chunkFiles := [some []],
    chunksIndexFile := some { total_icons := 0, chunk_size := 50, total_chunks := 1 },
    chunksInfoAPI := none,
    categoryAttempts := fun i => if i = 3 then some [("x", [1])] else none }

/-- An environment whose category manifest never loads. -/
def netNoCat : Network :=
  { chunkFiles := [some [recAb]],
    chunksIndexFile := some { total_icons := 1, chunk_size := 50, total_chunks := 1 },
    chunksInfoAPI := none,
    categoryAttempts := fun _ => none }

/-! ## Basic lemmas about the JS map/set primitives -/

theorem jsMapGet_set_self [DecidableEq K] (m : List (K × V)) (k : K) (v : V) :
    jsMapGet (jsMapSet m k v) k = some v := by
  induction m with
  | nil => simp [jsMapSet, jsMapGet]
  | cons p rest ih =>
    obtain ⟨k', v'⟩ := p
    by_cases h : k' = k
    · subst h; simp [jsMapSet, jsMapGet]
    · simp [jsMapSet, jsMapGet, h, ih]

theorem jsMapGet_set_ne [DecidableEq K] (m : List (K × V)) (k k' : K) (v : V)
    (h : k ≠ k') : jsMapGet (jsMapSet m k v) k' = jsMapGet m k' := by
  induction m with
  | nil => simp [jsMapSet, jsMapGet, h]
  | cons p rest ih =>
    obtain ⟨k'', v''⟩ := p
    by_cases h2 : k'' = k
    · subst h2; simp [jsMapSet, jsMapGet, h]
    · simp [jsMapSet, jsMapGet, h2, ih]

theorem jsMapGet_isSome_set [DecidableEq K] (m : List (K × V)) (k k' : K)
    (v : V) (h : (jsMapGet m k').isSome = true) :
    (jsMapGet (jsMapSet m k v) k').isSome = true := by
  by_cases hk : k = k'
  · subst hk; simp [jsMapGet_set_self]
  · rwa [jsMapGet_set_ne m k k' v hk]

theorem jsMapGet_mem [DecidableEq K] (m : List (K × V)) (k : K) (v : V)
    (h : jsMapGet m k = some v) : (k, v) ∈ m := by
  induction m with
  | nil => simp [jsMapGet] at h
  | cons p rest ih =>
    obtain ⟨k', v'⟩ := p
    by_cases h2 : k' = k
    · subst h2
      simp [jsMapGet] at h
      simp [h]
    · simp [jsMapGet, h2] at h
      exact List.mem_cons_of_mem _ (ih h)

theorem jsMapSet_mem [DecidableEq K] (m : List (K × V)) (k : K) (v : V)
    (p : K × V) (h : p ∈ jsMapSet m k v) : p ∈ m ∨ p = (k, v) := by
  induction m with
  | nil => simp [jsMapSet] at h; simp [h]
  | cons q rest ih =>
    obtain ⟨k', v'⟩ := q
    by_cases h2 : k' = k
    · subst h2
      simp [jsMapSet] at h
      rcases h with h | h
      · right; simp [h]
      · left; exact List.mem_cons_of_mem _ h
    · simp [jsMapSet, h2] at h
      rcases h with h | h
      · left; simp [h]
      · rcases ih h with h3 | h3
        · left; exact List.mem_cons_of_mem _ h3
        · right; exact h3

theorem jsMapDel_mem [DecidableEq K] (m : List (K × V)) (k : K) (p : K × V)
    (h : p ∈ jsMapDel m k) : p ∈ m := by
  induction m with
  | nil => simp [jsMapDel] at h
  | cons q rest ih =>
    obtain ⟨k', v'⟩ := q
    by_cases h2 : k' = k
    · subst h2
      simp [jsMapDel] at h
      exact List.mem_cons_of_mem _ h
    · simp [jsMapDel, h2] at h
      rcases h with h | h
      · simp [h]
      · exact List.mem_cons_of_mem _ (ih h)

theorem jsMapGet_append [DecidableEq K] (a b : List (K × V)) (k : K) :
    jsMapGet (a ++ b) k =
      match jsMapGet a k with
      | some v => some v
      | none => jsMapGet b k := by
  induction a with
  | nil => simp [jsMapGet]
  | cons p rest ih =>
    obtain ⟨k', v'⟩ := p
    by_cases h : k' = k
    · subst h; simp [jsMapGet]
    · simp [jsMapGet, h, ih]

theorem jsMapSet_of_get_none [DecidableEq K] (m : List (K × V)) (k : K)
    (v : V) (h : jsMapGet m k = none) : jsMapSet m k v = m ++ [(k, v)] := by
  induction m with
  | nil => simp [jsMapSet]
  | cons p rest ih =>
    obtain ⟨k', v'⟩ := p
    by_cases h2 : k' = k
    · subst h2; simp [jsMapGet] at h
    · simp [jsMapGet, h2] at h
      simp [jsMapSet, h2, ih h]

theorem jsSetAdd_mem {α : Type} [DecidableEq α] (s : List α) (x : α) :
    x ∈ jsSetAdd s x := by
  by_cases h : x ∈ s <;> simp [jsSetAdd, h]

theorem jsSetAdd_mono {α : Type} [DecidableEq α] (s : List α) (x y : α)
    (h : y ∈ s) : y ∈ jsSetAdd s x := by
  by_cases h2 : x ∈ s <;> simp [jsSetAdd, h2, h]

theorem jsSetAdd_mem_iff {α : Type} [DecidableEq α] (s : List α) (x y : α) :
    y ∈ jsSetAdd s x ↔ y ∈ s ∨ y = x := by
  by_cases h : x ∈ s
  · simp only [jsSetAdd, if_pos h]
    constructor
    · exact fun h2 => Or.inl h2
    · rintro (h2 | rfl) <;> [exact h2; exact h]
  · simp [jsSetAdd, if_neg h]

theorem removeFirst_eq_erase {α : Type} [DecidableEq α] (l : List α) (k : α) :
    removeFirst l k = l.erase k := by
  induction l with
  | nil => simp [removeFirst]
  | cons x xs ih =>
    by_cases h : x = k
    · subst h; simp [removeFirst, List.erase_cons_head]
    · rw [List.erase_cons_tail]
      · simp [removeFirst, h, ih]
      · simp [h]

theorem jsMapHas_iff_mem_keys [DecidableEq K] (m : List (K × V)) (k : K) :
    jsMapHas m k = true ↔ k ∈ m.map Prod.fst := by
  induction m with
  | nil => simp [jsMapHas, jsMapGet]
  | cons p rest ih =>
    obtain ⟨k', v'⟩ := p
    by_cases h : k' = k
    · subst h; simp [jsMapHas, jsMapGet]
    · simp only [jsMapHas, jsMapGet, if_neg h, List.map_cons, List.mem_cons]
      rw [← jsMapHas]
      rw [ih]
      constructor
      · exact fun h2 => Or.inr h2
      · rintro (h2 | h2)
        · exact absurd h2.symm h
        · exact h2

theorem keys_jsMapSet_of_has [DecidableEq K] (m : List (K × V)) (k : K)
    (v : V) (h : jsMapHas m k = true) :
    (jsMapSet m k v).map Prod.fst = m.map Prod.fst := by
  induction m with
  | nil => simp [jsMapHas, jsMapGet] at h
  | cons p rest ih =>
    obtain ⟨k', v'⟩ := p
    by_cases h2 : k' = k
    · subst h2; simp [jsMapSet]
    · simp only [jsMapHas, jsMapGet, if_neg h2] at h
      rw [← jsMapHas] at h
      simp [jsMapSet, h2, ih h]

theorem keys_jsMapSet_of_not [DecidableEq K] (m : List (K × V)) (k : K)
    (v : V) (h : jsMapHas m k = false) :
    (jsMapSet m k v).map Prod.fst = m.map Prod.fst ++ [k] := by
  have h2 : jsMapGet m k = none := by
    simp only [jsMapHas] at h
    exact Option.not_isSome_iff_eq_none.mp (by simp [h])
  rw [jsMapSet_of_get_none m k v h2]
  simp

theorem keys_jsMapDel [DecidableEq K] (m : List (K × V)) (k : K) :
    (jsMapDel m k).map Prod.fst = (m.map Prod.fst).erase k := by
  induction m with
  | nil => simp [jsMapDel]
  | cons p rest ih =>
    obtain ⟨k', v'⟩ := p
    by_cases h : k' = k
    · subst h; simp [jsMapDel, List.erase_cons_head]
    · rw [List.map_cons, List.erase_cons_tail]
      · simp [jsMapDel, h, ih]
      · simp [h]

theorem length_jsMapSet_of_has [DecidableEq K] (m : List (K × V)) (k : K)
    (v : V) (h : jsMapHas m k = true) :
    (jsMapSet m k v).length = m.length := by
  have := keys_jsMapSet_of_has m k v h
  have h1 : ((jsMapSet m k v).map Prod.fst).length = (m.map Prod.fst).length := by
    rw [this]
  simpa using h1

theorem length_jsMapSet_of_not [DecidableEq K] (m : List (K × V)) (k : K)
    (v : V) (h : jsMapHas m k = false) :
    (jsMapSet m k v).length = m.length + 1 := by
  have := keys_jsMapSet_of_not m k v h
  have h1 : ((jsMapSet m k v).map Prod.fst).length
      = (m.map Prod.fst ++ [k]).length := by rw [this]
  simpa using h1

theorem length_jsMapDel_of_mem [DecidableEq K] (m : List (K × V)) (k : K)
    (h : k ∈ m.map Prod.fst) :
    (jsMapDel m k).length = m.length - 1 := by
  have h1 : ((jsMapDel m k).map Prod.fst).length
      = ((m.map Prod.fst).erase k).length := by rw [keys_jsMapDel]
  rw [List.length_erase_of_mem h] at h1
  simpa using h1

/-! ## LRUCache lemmas -/

theorem LRUCache.get_fst [DecidableEq K] (c : LRUCache K V) (k : K) :
    (c.get k).1 = jsMapGet c.cache k := by
  unfold LRUCache.get
  cases hg : jsMapGet c.cache k with
  | none => simp [jsMapHas, hg]
  | some v => simp [jsMapHas, hg]

theorem LRUCache.set_get_self [DecidableEq K] (c : LRUCache K V) (k : K)
    (v : V) : ((c.set k v).get k).1 = some v := by
  rw [LRUCache.get_fst]
  unfold LRUCache.set
  by_cases h1 : jsMapHas c.cache k
  · rw [if_pos h1]
    exact jsMapGet_set_self _ _ _
  · rw [if_neg h1]
    by_cases h2 : c.cache.length >= c.maxSize
    · rw [if_pos h2]
      cases c.accessOrder with
      | nil => exact jsMapGet_set_self _ _ _
      | cons lru rest => exact jsMapGet_set_self _ _ _
    · rw [if_neg h2]
      exact jsMapGet_set_self _ _ _

theorem LRUCache.set_mem_cache [DecidableEq K] (c : LRUCache K V) (k : K)
    (v : V) (p : K × V) (h : p ∈ (c.set k v).cache) :
    p ∈ c.cache ∨ p = (k, v) := by
  unfold LRUCache.set at h
  by_cases h1 : jsMapHas c.cache k
  · rw [if_pos h1] at h
    exact jsMapSet_mem _ _ _ _ h
  · rw [if_neg h1] at h
    by_cases h2 : c.cache.length >= c.maxSize
    · rw [if_pos h2] at h
      cases hao : c.accessOrder with
      | nil =>
        rw [hao] at h
        exact jsMapSet_mem _ _ _ _ h
      | cons lru rest =>
        rw [hao] at h
        rcases jsMapSet_mem _ _ _ _ h with h3 | h3
        · exact Or.inl (jsMapDel_mem _ _ _ h3)
        · exact Or.inr h3
    · rw [if_neg h2] at h
      exact jsMapSet_mem _ _ _ _ h

theorem LRUCache.set_get_some [DecidableEq K] (c : LRUCache K V) (k : K)
    (v : V) : jsMapGet (c.set k v).cache k = some v := by
  have h := LRUCache.set_get_self c k v
  rwa [LRUCache.get_fst] at h

/-- `get` preserves the invariant and the size bound. -/
theorem get_inv (C : Nat) (c : LRUCache Nat Nat) (k : Nat)
    (hm : c.maxSize = C) (hinv : CacheInv c) (hlen : c.cache.length ≤ C) :
    (c.get k).2.maxSize = C ∧ CacheInv (c.get k).2
      ∧ (c.get k).2.cache.length ≤ C := by
  obtain ⟨hnd, hperm⟩ := hinv
  unfold LRUCache.get
  by_cases h : jsMapHas c.cache k
  · rw [if_pos h]
    have hk : k ∈ cacheKeys c := (jsMapHas_iff_mem_keys _ _).mp h
    have hk2 : k ∈ c.accessOrder := hperm.mem_iff.mpr hk
    refine ⟨hm, ⟨hnd, ?_⟩, hlen⟩
    show List.Perm (removeFirst c.accessOrder k ++ [k]) (cacheKeys c)
    rw [removeFirst_eq_erase]
    exact ((List.perm_append_singleton _ _).trans
      (List.perm_cons_erase hk2).symm).trans hperm
  · rw [if_neg h]
    exact ⟨hm, ⟨hnd, hperm⟩, hlen⟩

/-- `set` preserves the invariant and the size bound. -/
theorem set_inv (C : Nat) (hC : 1 ≤ C) (c : LRUCache Nat Nat) (k v : Nat)
    (hm : c.maxSize = C) (hinv : CacheInv c) (hlen : c.cache.length ≤ C) :
    (c.set k v).maxSize = C ∧ CacheInv (c.set k v)
      ∧ (c.set k v).cache.length ≤ C := by
  obtain ⟨hnd, hperm⟩ := hinv
  unfold LRUCache.set
  by_cases h1 : jsMapHas c.cache k
  · rw [if_pos h1]
    have hk : k ∈ cacheKeys c := (jsMapHas_iff_mem_keys _ _).mp h1
    have hk2 : k ∈ c.accessOrder := hperm.mem_iff.mpr hk
    have hkeys : (jsMapSet c.cache k v).map Prod.fst = cacheKeys c :=
      keys_jsMapSet_of_has _ _ _ h1
    refine ⟨hm, ⟨?_, ?_⟩, ?_⟩
    · show ((jsMapSet c.cache k v).map Prod.fst).Nodup
      rw [hkeys]; exact hnd
    · show List.Perm (removeFirst c.accessOrder k ++ [k])
        ((jsMapSet c.cache k v).map Prod.fst)
      rw [hkeys, removeFirst_eq_erase]
      exact ((List.perm_append_singleton _ _).trans
        (List.perm_cons_erase hk2).symm).trans hperm
    · show (jsMapSet c.cache k v).length ≤ C
      rw [length_jsMapSet_of_has _ _ _ h1]
      exact hlen
  · rw [if_neg h1]
    have hk : ¬ k ∈ cacheKeys c := by
      intro hmem
      exact h1 ((jsMapHas_iff_mem_keys _ _).mpr hmem)
    by_cases h2 : c.cache.length >= c.maxSize
    · rw [if_pos h2]
      have hlenC : c.cache.length = C :=
        le_antisymm hlen (by rw [← hm]; exact h2)
      have haoLen : c.accessOrder.length = C := by
        have := hperm.length_eq
        simpa [cacheKeys, hlenC] using this
      cases hao : c.accessOrder with
      | nil => rw [hao] at haoLen; simp at haoLen; omega
      | cons lru rest =>
        have hlru : lru ∈ cacheKeys c := by
          apply hperm.mem_iff.mp
          rw [hao]; exact List.mem_cons_self _ _
        have hkdel : (jsMapDel c.cache lru).map Prod.fst
            = (cacheKeys c).erase lru := keys_jsMapDel _ _
        have hknotdel : jsMapHas (jsMapDel c.cache lru) k = false := by
          rw [Bool.eq_false_iff]
          intro hmem
          rw [jsMapHas_iff_mem_keys, hkdel] at hmem
          exact hk (List.mem_of_mem_erase hmem)
        have hkeys2 : (jsMapSet (jsMapDel c.cache lru) k v).map Prod.fst
            = (cacheKeys c).erase lru ++ [k] := by
          rw [keys_jsMapSet_of_not _ _ _ hknotdel, hkdel]
        refine ⟨hm, ⟨?_, ?_⟩, ?_⟩
        · show ((jsMapSet (jsMapDel c.cache lru) k v).map Prod.fst).Nodup
          rw [hkeys2, List.nodup_append]
          refine ⟨hnd.erase _, List.nodup_singleton _, ?_⟩
          intro a ha hb
          simp at hb
          subst hb
          exact hk (List.mem_of_mem_erase ha)
        · show List.Perm (rest ++ [k])
            ((jsMapSet (jsMapDel c.cache lru) k v).map Prod.fst)
          rw [hkeys2]
          have hperm2 : List.Perm rest ((cacheKeys c).erase lru) := by
            have := hperm.erase lru
            rw [hao] at this
            simpa [List.erase_cons_head] using this
          exact hperm2.append_right [k]
        · show (jsMapSet (jsMapDel c.cache lru) k v).length ≤ C
          have hmemlru : lru ∈ c.cache.map Prod.fst := hlru
          rw [length_jsMapSet_of_not _ _ _ hknotdel,
            length_jsMapDel_of_mem _ _ hmemlru]
          omega
    · rw [if_neg h2]
      have h1f : jsMapHas c.cache k = false := by
        rw [Bool.eq_false_iff]; exact h1
      have hkeys : (jsMapSet c.cache k v).map Prod.fst
          = cacheKeys c ++ [k] := keys_jsMapSet_of_not _ _ _ h1f
      refine ⟨hm, ⟨?_, ?_⟩, ?_⟩
      · show ((jsMapSet c.cache k v).map Prod.fst).Nodup
        rw [hkeys, List.nodup_append]
        refine ⟨hnd, List.nodup_singleton _, ?_⟩
        intro a ha hb
        simp at hb
        subst hb
        exact hk ha
      · show List.Perm (c.accessOrder ++ [k])
          ((jsMapSet c.cache k v).map Prod.fst)
        rw [hkeys]
        exact hperm.append_right [k]
      · show (jsMapSet c.cache k v).length ≤ C
        rw [length_jsMapSet_of_not _ _ _ h1f]
        rw [hm] at h2
        omega

/-- `delete` preserves the invariant and the size bound. -/
theorem delete_inv (C : Nat) (c : LRUCache Nat Nat) (k : Nat)
    (hm : c.maxSize = C) (hinv : CacheInv c) (hlen : c.cache.length ≤ C) :
    (c.delete k).2.maxSize = C ∧ CacheInv (c.delete k).2
      ∧ (c.delete k).2.cache.length ≤ C := by
  obtain ⟨hnd, hperm⟩ := hinv
  unfold LRUCache.delete
  by_cases h : jsMapHas c.cache k
  · rw [if_pos h]
    refine ⟨hm, ⟨?_, ?_⟩, ?_⟩
    · show ((jsMapDel c.cache k).map Prod.fst).Nodup
      rw [keys_jsMapDel]
      exact hnd.erase k
    · show List.Perm (removeFirst c.accessOrder k)
        ((jsMapDel c.cache k).map Prod.fst)
      rw [keys_jsMapDel, removeFirst_eq_erase]
      exact hperm.erase k
    · show (jsMapDel c.cache k).length ≤ C
      have : (jsMapDel c.cache k).length = c.cache.length - 1 :=
        length_jsMapDel_of_mem _ _ ((jsMapHas_iff_mem_keys _ _).mp h)
      omega
  · rw [if_neg h]
    exact ⟨hm, ⟨hnd, hperm⟩, hlen⟩

/-- Every operation preserves the invariant and the size bound. -/
theorem applyOp_inv (C : Nat) (hC : 1 ≤ C) (c : LRUCache Nat Nat)
    (hm : c.maxSize = C) (hinv : CacheInv c) (hlen : c.cache.length ≤ C)
    (op : CacheOp) :
    (applyOp c op).maxSize = C ∧ CacheInv (applyOp c op)
      ∧ (applyOp c op).cache.length ≤ C := by
  cases op with
  | get k => exact get_inv C c k hm hinv hlen
  | set k v => exact set_inv C hC c k v hm hinv hlen
  | has k => exact ⟨hm, hinv, hlen⟩
  | del k => exact delete_inv C c k hm hinv hlen
  | clear =>
    refine ⟨hm, ⟨?_, ?_⟩, ?_⟩ <;> simp [applyOp, LRUCache.clear, cacheKeys]

/-- The invariant and the size bound hold after any operation sequence from
the empty cache. -/
theorem applyOps_inv (C : Nat) (hC : 1 ≤ C) (ops : List CacheOp) :
    (applyOps (LRUCache.empty C) ops).maxSize = C
      ∧ CacheInv (applyOps (LRUCache.empty C) ops)
      ∧ (applyOps (LRUCache.empty C) ops).cache.length ≤ C := by
  induction ops using List.reverseRecOn with
  | nil =>
    refine ⟨rfl, ⟨?_, ?_⟩, ?_⟩ <;> simp [applyOps, LRUCache.empty, CacheInv, cacheKeys]
  | append_singleton l op ih =>
    simp only [applyOps, List.foldl_append, List.foldl_cons, List.foldl_nil]
    obtain ⟨hm, hinv, hlen⟩ := ih
    exact applyOp_inv C hC _ hm hinv hlen op

/-! ## Filling an LRU cache with fresh keys -/

theorem jsMapGet_pairs_none (l : List Nat) (k : Nat) (h : k ∉ l) :
    jsMapGet (l.map (fun x => (x, x))) k = none := by
  induction l with
  | nil => simp [jsMapGet]
  | cons x xs ih =>
    simp only [List.mem_cons, not_or] at h
    have hx : x ≠ k := fun he => h.1 he.symm
    simp [jsMapGet, hx, ih h.2]

theorem jsMapGet_pairs_mem (l : List Nat) (k : Nat) (hnd : l.Nodup)
    (h : k ∈ l) : jsMapGet (l.map (fun x => (x, x))) k = some k := by
  induction l with
  | nil => simp at h
  | cons x xs ih =>
    rcases List.mem_cons.mp h with h2 | h2
    · subst h2; simp [jsMapGet]
    · have hx : x ≠ k := by
        rintro rfl
        exact (List.nodup_cons.mp hnd).1 h2
      simp [jsMapGet, hx, ih (List.nodup_cons.mp hnd).2 h2]

/-- Inserting fresh distinct keys into a cache with spare capacity appends
them to both the map and the access order. -/
theorem insertAll_fresh (C : Nat) :
    ∀ (ks : List Nat) (ps : List (Nat × Nat)) (ao : List Nat),
      ks.Nodup → (∀ k ∈ ks, jsMapGet ps k = none) →
      ao.length = ps.length → ps.length + ks.length ≤ C →
      insertAll ⟨C, ps, ao⟩ ks
        = ⟨C, ps ++ ks.map (fun k => (k, k)), ao ++ ks⟩ := by
  intro ks
  induction ks with
  | nil => intro ps ao _ _ _ _; simp [insertAll]
  | cons k rest ih =>
    intro ps ao hnd hfresh hlen hcap
    have hknone : jsMapGet ps k = none := hfresh k (List.mem_cons_self _ _)
    have hstep : (LRUCache.set ⟨C, ps, ao⟩ k k)
        = ⟨C, ps ++ [(k, k)], ao ++ [k]⟩ := by
      unfold LRUCache.set
      rw [if_neg (by simp [jsMapHas, hknone])]
      have hlt : ¬ ((⟨C, ps, ao⟩ : LRUCache Nat Nat).cache.length
          ≥ (⟨C, ps, ao⟩ : LRUCache Nat Nat).maxSize) := by
        show ¬ ps.length ≥ C
        simp only [List.length_cons] at hcap
        omega
      rw [if_neg hlt]
      rw [jsMapSet_of_get_none _ _ _ hknone]
    show insertAll (LRUCache.set ⟨C, ps, ao⟩ k k) rest = _
    rw [hstep]
    rw [ih (ps ++ [(k, k)]) (ao ++ [k]) (List.nodup_cons.mp hnd).2 ?_ ?_ ?_]
    · simp
    · intro k' hk'
      rw [jsMapGet_append]
      rw [hfresh k' (List.mem_cons_of_mem _ hk')]
      have hne : k ≠ k' := by
        rintro rfl
        exact (List.nodup_cons.mp hnd).1 hk'
      simp [jsMapGet, hne]
    · simp [hlen]
    · simp only [List.length_append, List.length_cons, List.length_nil]
        at hcap ⊢
      omega

/-- Claim C1: `set` followed by `get` returns the stored value; both `get`
and `set` on an existing key promote it to most-recently-used (the last
entry of `accessOrder`); and after inserting `capacity + 1` distinct fresh
keys into an empty cache, the least-recently-used key (the first inserted)
is absent while every other inserted key is present. -/
theorem C1_lru_semantics (c : LRUCache Nat Nat) (k v : Nat) (C : Nat)
    (f0 : Nat) (fr : List Nat) (last : Nat)
    (hC : 1 ≤ C) (hnd : (f0 :: fr ++ [last]).Nodup)
    (hlen : (f0 :: fr).length = C) :
    (((c.set k v).get k).1 = some v)
    ∧ (jsMapHas c.cache k = true →
        ((c.get k).2.accessOrder.getLast? = some k
          ∧ (c.set k v).accessOrder.getLast? = some k))
    ∧ (jsMapHas (insertAll (LRUCache.empty C) (f0 :: fr ++ [last])).cache f0
        = false
      ∧ ∀ k' ∈ fr ++ [last],
          jsMapHas (insertAll (LRUCache.empty C) (f0 :: fr ++ [last])).cache k'
            = true) := by
  refine ⟨LRUCache.set_get_self c k v, ?_, ?_⟩
  · intro h
    constructor
    · unfold LRUCache.get
      rw [if_pos h]
      exact List.getLast?_concat _
    · unfold LRUCache.set
      rw [if_pos h]
      exact List.getLast?_concat _
  · have hparts := List.nodup_append.mp hnd
    have hfrnd : (f0 :: fr).Nodup := hparts.1
    have hlastfresh : last ∉ f0 :: fr := by
      intro hmem
      exact hparts.2.2 hmem (List.mem_singleton_self _)
    have hfill : insertAll (LRUCache.empty C) (f0 :: fr)
        = ⟨C, (f0 :: fr).map (fun k => (k, k)), f0 :: fr⟩ := by
      have := insertAll_fresh C (f0 :: fr) [] [] hfrnd
        (by intro k' _; simp [jsMapGet]) (by simp) (by simp [hlen])
      simpa [LRUCache.empty] using this
    have hsplit : insertAll (LRUCache.empty C) (f0 :: fr ++ [last])
        = LRUCache.set (insertAll (LRUCache.empty C) (f0 :: fr)) last last := by
      show insertAll (LRUCache.empty C) ((f0 :: fr) ++ [last]) = _
      unfold insertAll
      rw [List.foldl_append]
      rfl
    have hlastget : jsMapGet ((f0 :: fr).map (fun k => (k, k))) last = none :=
      jsMapGet_pairs_none _ _ hlastfresh
    have hfinal : insertAll (LRUCache.empty C) (f0 :: fr ++ [last])
        = ⟨C, (fr.map (fun k => (k, k))) ++ [(last, last)], fr ++ [last]⟩ := by
      rw [hsplit, hfill]
      unfold LRUCache.set
      have hcond1 : ¬ (jsMapHas ((f0 :: fr).map (fun k => (k, k))) last
          = true) := by
        simp only [jsMapHas, hlastget]
        simp
      rw [if_neg hcond1]
      have hcond2 : ((f0 :: fr).map (fun k => (k, k))).length ≥ C := by
        simp only [List.length_map]
        omega
      rw [if_pos hcond2]
      show (⟨C, jsMapSet (jsMapDel ((f0 :: fr).map (fun k => (k, k))) f0)
        last last, fr ++ [last]⟩ : LRUCache Nat Nat) = _
      have hdel : jsMapDel ((f0 :: fr).map (fun k => (k, k))) f0
          = fr.map (fun k => (k, k)) := by
        simp [jsMapDel]
      rw [hdel]
      have hget2 : jsMapGet (fr.map (fun k => (k, k))) last = none := by
        apply jsMapGet_pairs_none
        intro hmem
        exact hlastfresh (List.mem_cons_of_mem _ hmem)
      rw [jsMapSet_of_get_none _ _ _ hget2]
    rw [hfinal]
    constructor
    · show jsMapHas ((fr.map (fun k => (k, k))) ++ [(last, last)]) f0 = false
      have hf0fr : f0 ∉ fr := (List.nodup_cons.mp hfrnd).1
      have hf0last : f0 ≠ last := by
        intro h2
        exact hlastfresh (h2 ▸ List.mem_cons_self _ _)
      simp only [jsMapHas, jsMapGet_append, jsMapGet_pairs_none fr f0 hf0fr]
      simp [jsMapGet, hf0last.symm]
    · intro k' hk'
      show jsMapHas ((fr.map (fun k => (k, k))) ++ [(last, last)]) k' = true
      rcases List.mem_append.mp hk' with h2 | h2
      · have : jsMapGet (fr.map (fun k => (k, k))) k' = some k' :=
          jsMapGet_pairs_mem fr k' (List.nodup_cons.mp hfrnd).2 h2
        simp [jsMapHas, jsMapGet_append, this]
      · have hkl : k' = last := List.mem_singleton.mp h2
        subst hkl
        have : jsMapGet (fr.map (fun k => (k, k))) k' = none := by
          apply jsMapGet_pairs_none
          intro hmem
          exact hlastfresh (List.mem_cons_of_mem _ hmem)
        simp [jsMapHas, jsMapGet_append, this, jsMapGet]

/-- Witness for C1 at capacity 2: after `set 0, set 1, set 2` on an empty
2-cache key 0 is evicted and keys 1, 2 remain; promotion exercised on a
cache holding key 0. -/
theorem C1_lru_semantics_witness :
    jsMapHas (insertAll (LRUCache.empty 2) (0 :: [1] ++ [2])).cache 0 = false
    ∧ jsMapHas (insertAll (LRUCache.empty 2) (0 :: [1] ++ [2])).cache 1 = true
    ∧ jsMapHas (insertAll (LRUCache.empty 2) (0 :: [1] ++ [2])).cache 2 = true
    ∧ ((((LRUCache.empty 2).set 0 0).set 5 7).get 5).1 = some 7
    ∧ (((LRUCache.empty 2).set 0 0).get 0).2.accessOrder.getLast? = some 0 := by
  have h := C1_lru_semantics ((LRUCache.empty 2).set 0 0) 5 7 2 0 [1] 2
    (by decide) (by decide) (by decide)
  have h2 := C1_lru_semantics ((LRUCache.empty 2).set 0 0) 0 0 2 0 [1] 2
    (by decide) (by decide) (by decide)
  refine ⟨h.2.2.1, h.2.2.2 1 (by decide), h.2.2.2 2 (by decide), h.1, ?_⟩
  exact (h2.2.1 (by decide)).1

/-- Claim C2: starting from an empty cache of capacity `C ≥ 1`, no sequence
of `get`/`set`/`has`/`delete`/`clear` operations ever makes the number of
entries exceed `C`; and a `set` of a fresh key on a full reachable cache
evicts exactly one entry before inserting, leaving the size at `C` with the
new key present. -/
theorem C2_capacity_bound (C : Nat) (hC : 1 ≤ C) (ops : List CacheOp)
    (k v : Nat) :
    (applyOps (LRUCache.empty C) ops).cache.length ≤ C
    ∧ ((applyOps (LRUCache.empty C) ops).cache.length = C →
        jsMapHas (applyOps (LRUCache.empty C) ops).cache k = false →
        (((applyOps (LRUCache.empty C) ops).set k v).cache.length = C
          ∧ jsMapHas ((applyOps (LRUCache.empty C) ops).set k v).cache k
              = true)) := by
  obtain ⟨hm, hinv, hlen⟩ := applyOps_inv C hC ops
  refine ⟨hlen, ?_⟩
  intro hfull hfresh
  set c := applyOps (LRUCache.empty C) ops with hc
  obtain ⟨hm2, ⟨hnd2, hperm2⟩, hlen2⟩ :=
    set_inv C hC c k v hm hinv hlen
  have hhas : jsMapHas (c.set k v).cache k = true := by
    simp [jsMapHas, LRUCache.set_get_some]
  refine ⟨?_, hhas⟩
  have hknot : ¬ k ∈ cacheKeys c := by
    intro hmem
    have := (jsMapHas_iff_mem_keys c.cache k).mpr hmem
    rw [hfresh] at this
    exact Bool.false_ne_true this
  have hgrow : (c.set k v).cache.length = C := by
    unfold LRUCache.set
    rw [if_neg (by rw [hfresh]; exact Bool.false_ne_true)]
    rw [if_pos (by rw [hfull, hm])]
    have haoLen : c.accessOrder.length = C := by
      have := (hinv.2).length_eq
      simpa [cacheKeys, hfull] using this
    cases hao : c.accessOrder with
    | nil => rw [hao] at haoLen; simp at haoLen; omega
    | cons lru rest =>
      show (jsMapSet (jsMapDel c.cache lru) k v).length = C
      have hlru : lru ∈ cacheKeys c := by
        apply (hinv.2).mem_iff.mp
        rw [hao]; exact List.mem_cons_self _ _
      have hknotdel : jsMapHas (jsMapDel c.cache lru) k = false := by
        rw [Bool.eq_false_iff]
        intro hmem
        rw [jsMapHas_iff_mem_keys, keys_jsMapDel] at hmem
        exact hknot (List.mem_of_mem_erase hmem)
      rw [length_jsMapSet_of_not _ _ _ hknotdel,
        length_jsMapDel_of_mem _ _ hlru, hfull]
      omega
  exact hgrow

/-- Witness for C2: capacity 1, two sets then a get; size stays at 1, and a
fresh `set` on the full cache keeps the size at 1 with the new key present. -/
theorem C2_capacity_bound_witness :
    (applyOps (LRUCache.empty 1)
        [CacheOp.set 3 3, CacheOp.set 4 4, CacheOp.get 4]).cache.length ≤ 1
    ∧ ((applyOps (LRUCache.empty 1)
        [CacheOp.set 3 3, CacheOp.set 4 4, CacheOp.get 4]).set 9 9).cache.length
        = 1 := by
  have h := C2_capacity_bound 1 (by decide)
    [CacheOp.set 3 3, CacheOp.set 4 4, CacheOp.get 4] 9 9
  exact ⟨h.1, (h.2 (by decide) (by decide)).1⟩

/-! ## Search guard (claim C10) -/

/-- The guard of `searchIcons` on a short raw term. -/
theorem searchIcons_guard_short (fetch : Nat → Option (List Record))
    (s : APIState) (limit : Nat) (t : String) (ht : t.data.length < 2) :
    searchIcons fetch s (some t) limit = ([], s) := by
  show (if t.data.length < 2 then (([], s) : List IconData × APIState)
    else searchResolve fetch s (jsQuery t) limit) = ([], s)
  rw [if_pos ht]

/-- A term passing the guard is resolved via its lowercased trimmed form. -/
theorem searchIcons_run (fetch : Nat → Option (List Record)) (s : APIState)
    (limit : Nat) (t : String) (ht : 2 ≤ t.data.length) :
    searchIcons fetch s (some t) limit
      = searchResolve fetch s (jsQuery t) limit := by
  show (if t.data.length < 2 then (([], s) : List IconData × APIState)
    else searchResolve fetch s (jsQuery t) limit) = _
  rw [if_neg (by omega)]

/-- Claim C10: an absent term or a term whose raw length is below 2 makes
`searchIcons` return `[]` with the state untouched (no index walk, no
fetch); a term of raw length ≥ 2 passes the guard and is searched as its
lowercased, trimmed form — so the guard sees the raw `" a "` (length 3)
and the search then runs on `"a"`. -/
theorem C10_search_guard (fetch : Nat → Option (List Record)) (s : APIState)
    (limit : Nat) :
    searchIcons fetch s none limit = ([], s)
    ∧ (∀ t : String, t.data.length < 2 →
        searchIcons fetch s (some t) limit = ([], s))
    ∧ (∀ t : String, 2 ≤ t.data.length →
        searchIcons fetch s (some t) limit
          = searchResolve fetch s (jsQuery t) limit) := by
  exact ⟨rfl, fun t ht => searchIcons_guard_short fetch s limit t ht,
    fun t ht => searchIcons_run fetch s limit t ht⟩

/-- Witness for C10: guard rejections, and the whitespace-padded `" a "`
passing the raw-length guard and searched as `"a"`, matching `recAb`. -/
theorem C10_search_guard_witness :
    searchIcons netAb.fetchChunk stateAb none 10 = ([], stateAb)
    ∧ searchIcons netAb.fetchChunk stateAb (some "a") 10 = ([], stateAb)
    ∧ jsQuery " a " = "a"
    ∧ searchIcons netAb.fetchChunk stateAb (some " a ") 10
        = searchResolve netAb.fetchChunk stateAb (jsQuery " a ") 10
    ∧ (searchIcons netAb.fetchChunk stateAb (some " a ") 10).1
        = [IconData.full recAb] := by
  have h := C10_search_guard netAb.fetchChunk stateAb 10
  exact ⟨h.1, h.2.1 "a" (by decide), by decide,
    h.2.2 " a " (by decide), by decide⟩

/-! ## Index construction lemmas (claim C8) -/

theorem idsFor_idxAdd_self (idx : List (String × List String)) (t id : String) :
    id ∈ idsFor (idxAdd idx t id) t := by
  unfold idxAdd
  cases hg : jsMapGet idx t with
  | some s =>
    simp only [idsFor, jsMapGet_set_self]
    exact jsSetAdd_mem s id
  | none =>
    simp only [idsFor, jsMapGet_append, hg]
    simp [jsMapGet]

theorem idsFor_idxAdd_mono (idx : List (String × List String))
    (t t' id id' : String) (h : id' ∈ idsFor idx t') :
    id' ∈ idsFor (idxAdd idx t id) t' := by
  have hsome : ∃ s', jsMapGet idx t' = some s' ∧ id' ∈ s' := by
    cases hg : jsMapGet idx t' with
    | none => simp [idsFor, hg] at h
    | some s' => exact ⟨s', rfl, by simpa [idsFor, hg] using h⟩
  obtain ⟨s', hg', hmem⟩ := hsome
  unfold idxAdd
  cases hg : jsMapGet idx t with
  | some s =>
    by_cases he : t = t'
    · subst he
      rw [hg] at hg'
      obtain rfl : s = s' := by injection hg'
      simp only [idsFor, jsMapGet_set_self]
      exact jsSetAdd_mono _ _ _ hmem
    · simp only [idsFor, jsMapGet_set_ne idx t t' _ he, hg']
      exact hmem
  | none =>
    simp only [idsFor, jsMapGet_append, hg']
    exact hmem

theorem foldl_idxAdd_mono (id t' id' : String) (g : Nat → String) :
    ∀ (l : List Nat) (idx : List (String × List String)),
      id' ∈ idsFor idx t' →
      id' ∈ idsFor (l.foldl (fun a i => idxAdd a (g i) id) idx) t' := by
  intro l
  induction l with
  | nil => intro idx h; exact h
  | cons i rest ih =>
    intro idx h
    exact ih _ (idsFor_idxAdd_mono _ _ _ _ _ h)

theorem foldl_idxAdd_adds (id : String) (g : Nat → String) :
    ∀ (l : List Nat) (idx : List (String × List String)) (j : Nat), j ∈ l →
      id ∈ idsFor (l.foldl (fun a i => idxAdd a (g i) id) idx) (g j) := by
  intro l
  induction l with
  | nil => intro idx j h; simp at h
  | cons i rest ih =>
    intro idx j h
    rcases List.mem_cons.mp h with h2 | h2
    · subst h2
      exact foldl_idxAdd_mono id _ id g rest _ (idsFor_idxAdd_self idx (g j) id)
    · exact ih _ j h2

theorem idsFor_indexTerm_mono (idx : List (String × List String))
    (term id t' id' : String) (h : id' ∈ idsFor idx t') :
    id' ∈ idsFor (indexTerm idx term id) t' := by
  unfold indexTerm
  by_cases hc : 1 < term.data.length
  · rw [if_pos hc]
    exact foldl_idxAdd_mono id t' id' (termPrefix term) _ _
      (idsFor_idxAdd_mono _ _ _ _ _ h)
  · rw [if_neg hc]
    exact h

theorem idsFor_indexTerm_adds (idx : List (String × List String))
    (term id : String) (i : Nat) (hterm : 2 ≤ term.data.length)
    (hi2 : 2 ≤ i) (hile : i ≤ term.data.length) :
    id ∈ idsFor (indexTerm idx term id) (termPrefix term i) := by
  unfold indexTerm
  rw [if_pos (by omega)]
  apply foldl_idxAdd_adds id (termPrefix term) _ _ i
  rw [List.mem_range']
  exact ⟨i - 2, by omega, by omega⟩

theorem foldl_indexTerm_mono (id t' id' : String) :
    ∀ (terms : List String) (idx : List (String × List String)),
      id' ∈ idsFor idx t' →
      id' ∈ idsFor (terms.foldl (fun a t => indexTerm a t id) idx) t' := by
  intro terms
  induction terms with
  | nil => intro idx h; exact h
  | cons t rest ih =>
    intro idx h
    exact ih _ (idsFor_indexTerm_mono _ _ _ _ _ h)

theorem foldl_indexTerm_adds (id : String) (term : String) (i : Nat)
    (hterm : 2 ≤ term.data.length) (hi2 : 2 ≤ i)
    (hile : i ≤ term.data.length) :
    ∀ (terms : List String) (idx : List (String × List String)),
      term ∈ terms →
      id ∈ idsFor (terms.foldl (fun a t => indexTerm a t id) idx)
        (termPrefix term i) := by
  intro terms
  induction terms with
  | nil => intro idx h; simp at h
  | cons t rest ih =>
    intro idx h
    rcases List.mem_cons.mp h with h2 | h2
    · subst h2
      exact foldl_indexTerm_mono id _ id rest _
        (idsFor_indexTerm_adds _ _ _ _ hterm hi2 hile)
    · exact ih _ h2

theorem indexIcon_locator_keep (st : APIState) (icon : Record) (n : Nat)
    (id₀ : String) (h : jsMapGet st.iconToChunk id₀ = some n) :
    jsMapGet (indexIcon st icon n).iconToChunk id₀ = some n := by
  show jsMapGet (jsMapSet st.iconToChunk icon.id n) id₀ = some n
  by_cases he : icon.id = id₀
  · subst he; exact jsMapGet_set_self _ _ _
  · rw [jsMapGet_set_ne _ _ _ _ he]; exact h

theorem foldl_indexIcon_locator_keep (n : Nat) (id₀ : String) :
    ∀ (icons : List Record) (st : APIState),
      jsMapGet st.iconToChunk id₀ = some n →
      jsMapGet (indexIconsFromChunk st icons n).iconToChunk id₀ = some n := by
  intro icons
  induction icons with
  | nil => intro st h; exact h
  | cons icon rest ih =>
    intro st h
    exact ih _ (indexIcon_locator_keep st icon n id₀ h)

theorem foldl_indexIcon_index_mono (n : Nat) (t' id' : String) :
    ∀ (icons : List Record) (st : APIState),
      id' ∈ idsFor st.searchIndex t' →
      id' ∈ idsFor (indexIconsFromChunk st icons n).searchIndex t' := by
  intro icons
  induction icons with
  | nil => intro st h; exact h
  | cons icon rest ih =>
    intro st h
    apply ih
    show id' ∈ idsFor ((searchTermsOf icon).foldl
      (fun idx t => indexTerm idx t icon.id) st.searchIndex) t'
    exact foldl_indexTerm_mono icon.id t' id' _ _ h

/-- Claim C8: after `indexIconsFromChunk(icons, n)`, every record of the
chunk is locatable (`iconToChunk r.id = n`), and for every derived search
term of length ≥ 2, every prefix of length 2..length of that term (the term
itself included) maps to an id set containing the record's id. -/
theorem C8_indexing (st : APIState) (icons : List Record) (n : Nat) :
    ∀ icon ∈ icons,
      jsMapGet (indexIconsFromChunk st icons n).iconToChunk icon.id = some n
      ∧ ∀ t ∈ searchTermsOf icon, 2 ≤ t.data.length →
          ∀ i, 2 ≤ i → i ≤ t.data.length →
            icon.id ∈ idsFor (indexIconsFromChunk st icons n).searchIndex
              (termPrefix t i) := by
  induction icons generalizing st with
  | nil => intro icon h; simp at h
  | cons hd tl ih =>
    intro icon hmem
    rcases List.mem_cons.mp hmem with h2 | h2
    · subst h2
      constructor
      · apply foldl_indexIcon_locator_keep n icon.id tl (indexIcon st icon n)
        show jsMapGet (jsMapSet st.iconToChunk icon.id n) icon.id = some n
        exact jsMapGet_set_self _ _ _
      · intro t ht hlen i hi2 hile
        apply foldl_indexIcon_index_mono n _ _ tl (indexIcon st icon n)
        show icon.id ∈ idsFor ((searchTermsOf icon).foldl
          (fun idx u => indexTerm idx u icon.id) st.searchIndex)
          (termPrefix t i)
        exact foldl_indexTerm_adds icon.id t i hlen hi2 hile _ _ ht
    · exact ih (indexIcon st hd n) icon h2

/-- Witness for C8: indexing chunk 2 maps `homework` to chunk 2 and indexes
the prefix `home` of the term `homework` with `homework`'s id. -/
theorem C8_indexing_witness :
    jsMapGet (indexIconsFromChunk initialState
        [recHomeOutline, recHomework] 2).iconToChunk "homework" = some 2
    ∧ "homework" ∈ idsFor (indexIconsFromChunk initialState
        [recHomeOutline, recHomework] 2).searchIndex
        (termPrefix (jsLower "homework") 4) := by
  have h := C8_indexing initialState [recHomeOutline, recHomework] 2
    recHomework (by decide)
  exact ⟨h.1, h.2 (jsLower "homework") (by decide) (by decide) 4
    (by decide) (by decide)⟩

/-! ## Failed chunk loads (claim C6) -/

/-- Claim C6: when the fetch (or decode) of an uncached chunk fails,
`loadChunk` returns `[]` and the whole engine state — cache, locator,
search index — is exactly what it was (no cache entry is created); a later
call against a recovered environment performs the fetch again and returns
the chunk's records. -/
theorem C6_failed_fetch (net : Network) (s : APIState) (n : Nat)
    (h1 : net.fetchChunk n = none)
    (h2 : jsMapHas s.loadedChunks.cache n = false) :
    loadChunk net.fetchChunk s n = ([], s)
    ∧ ∀ (net2 : Network) (chunk : List Record),
        net2.fetchChunk n = some chunk →
        (loadChunk net2.fetchChunk (loadChunk net.fetchChunk s n).2 n).1
          = chunk := by
  have hcond : ¬ (jsMapHas s.loadedChunks.cache n = true) := by
    rw [h2]; exact Bool.false_ne_true
  have hfail : loadChunk net.fetchChunk s n = ([], s) := by
    unfold loadChunk
    rw [if_neg hcond, h1]
  refine ⟨hfail, ?_⟩
  intro net2 chunk hc
  rw [hfail]
  unfold loadChunk
  rw [if_neg hcond, hc]

/-- Witness for C6: `netFail`'s only chunk file is down; the load returns
`[]` and leaves the fresh state untouched, and retrying against
`netRecovered` returns the chunk. -/
theorem C6_failed_fetch_witness :
    loadChunk netFail.fetchChunk initialState 1 = ([], initialState)
    ∧ (loadChunk netRecovered.fetchChunk
        (loadChunk netFail.fetchChunk initialState 1).2 1).1 = [recAb] := by
  have h := C6_failed_fetch netFail initialState 1 (by decide) (by decide)
  exact ⟨h.1, h.2 netRecovered [recAb] (by decide)⟩

/-! ## Category-map retry and fallback (claim C7) -/

/-- When every attempt up to `retryCount = 3` fails, the category loader
waits `1000·1, 1000·2, 1000·3` ms before its three retries and then caches
and returns the empty mapping. -/
theorem loadCategoryChunks_allFail (net : Network) (s : APIState)
    (hnc : s.categoryChunks = none)
    (hfail : ∀ i, i ≤ 3 → net.categoryAttempts i = none) :
    loadCategoryChunks net s 0
      = ([], [1000 * 1, 1000 * 2, 1000 * 3],
         { s with categoryChunks := some [] }) := by
  have h0 := hfail 0 (by omega)
  have h1 := hfail 1 (by omega)
  have h2 := hfail 2 (by omega)
  have h3 := hfail 3 (by omega)
  show loadCategoryChunksAux net s 0 4 = _
  simp only [loadCategoryChunksAux, hnc, h0, h1, h2, h3]
  norm_num

/-- Claim C7 (amended): the category-map loader retries up to 3 times,
waiting `1000 ms × k` before the k-th retry; when the initial attempt and
all 3 retries fail (4 failures), it resolves to the cached empty mapping
instead of throwing, and a subsequent `getIcons({category: cat})` against
that empty mapping returns `Except.ok []` rather than crashing (given a
loadable chunk manifest). -/
theorem C7_category_fallback (net : Network) (s : APIState)
    (idx : ChunksIndex) (cat : String) (limit : Nat)
    (hnc : s.categoryChunks = none)
    (hfail : ∀ i, i ≤ 3 → net.categoryAttempts i = none)
    (hIdx : net.effIndex = some idx)
    (hcat1 : ¬ cat = "") (hcat2 : ¬ cat = "all") :
    loadCategoryChunks net s 0
      = ([], [1000 * 1, 1000 * 2, 1000 * 3],
         { s with categoryChunks := some [] })
    ∧ (getIcons net { s with categoryChunks := some [] } limit
        (some cat) none).1 = Except.ok [] := by
  refine ⟨loadCategoryChunks_allFail net s hnc hfail, ?_⟩
  have hcats : catTruthy (some cat) = some cat := by
    show (if (cat == "" || cat == "all") = true then none else some cat)
      = some cat
    rw [if_neg]
    simp only [Bool.or_eq_true, beq_iff_eq, not_or]
    exact ⟨hcat1, hcat2⟩
  show (getIconsChunkPath net { s with categoryChunks := some [] } limit
    (some cat) none).1 = Except.ok []
  obtain ⟨j, s2, hL, hcc⟩ : ∃ j s2,
      loadChunksIndex net { s with categoryChunks := some [] }
        = (Except.ok j, s2) ∧ s2.categoryChunks = some [] := by
    cases hsi : s.chunksIndex with
    | some i =>
      refine ⟨i, { s with categoryChunks := some [] }, ?_, rfl⟩
      simp only [loadChunksIndex, hsi]
    | none =>
      refine ⟨idx,
        { s with categoryChunks := some [], chunksIndex := some idx },
        ?_, rfl⟩
      simp only [loadChunksIndex, hsi, hIdx]
  have hcache : loadCategoryChunks net s2 0 = ([], [], s2) := by
    show loadCategoryChunksAux net s2 0 4 = _
    simp only [loadCategoryChunksAux, hcc]
  unfold getIconsChunkPath
  rw [hL]
  simp only [hcats, hcache]
  simp [jsMapGet, loadChunksList]

/-- Counterexample to claim C7 as stated: against `netFourth` the category
fetch fails exactly 3 times (attempts with retryCount 0, 1 and 2) and the
loader still does not resolve to the empty map — it retries a 4th time,
succeeds, and returns the fetched non-empty mapping. -/
theorem C7_counterexample :
    (∀ i, i < 3 → netFourth.categoryAttempts i = none)
    ∧ loadCategoryChunks netFourth initialState 0
        = ([("x", [1])], [1000 * 1, 1000 * 2, 1000 * 3],
           { initialState with categoryChunks := some [("x", [1])] })
    ∧ (loadCategoryChunks netFourth initialState 0).1 ≠ [] := by
  refine ⟨?_, by decide, by decide⟩
  intro i hi
  interval_cases i <;> rfl

/-- Witness for the amended C7 theorem at a concrete environment. -/
theorem C7_category_fallback_witness :
    loadCategoryChunks netNoCat initialState 0
      = ([], [1000 * 1, 1000 * 2, 1000 * 3],
         { initialState with categoryChunks := some [] })
    ∧ (getIcons netNoCat { initialState with categoryChunks := some [] } 20
        (some "x") none).1 = Except.ok [] := by
  exact C7_category_fallback netNoCat initialState
    { total_icons := 1, chunk_size := 50, total_chunks := 1 } "x" 20
    rfl (fun i _ => rfl) rfl (by decide) (by decide)

/-! ## State-shape lemmas for chunk loading -/

theorem LRUCache.get_cache [DecidableEq K] (c : LRUCache K V) (k : K) :
    (c.get k).2.cache = c.cache := by
  unfold LRUCache.get
  by_cases h : jsMapHas c.cache k
  · rw [if_pos h]; rfl
  · rw [if_neg h]


theorem indexIconsFromChunk_loadedChunks (icons : List Record) (n : Nat) :
    ∀ st : APIState,
      (indexIconsFromChunk st icons n).loadedChunks = st.loadedChunks := by
  induction icons with
  | nil => intro st; rfl
  | cons hd tl ih => intro st; exact ih (indexIcon st hd n)

theorem indexIconsFromChunk_chunksIndex (icons : List Record) (n : Nat) :
    ∀ st : APIState,
      (indexIconsFromChunk st icons n).chunksIndex = st.chunksIndex := by
  induction icons with
  | nil => intro st; rfl
  | cons hd tl ih => intro st; exact ih (indexIcon st hd n)

theorem indexIconsFromChunk_categoryChunks (icons : List Record) (n : Nat) :
    ∀ st : APIState,
      (indexIconsFromChunk st icons n).categoryChunks = st.categoryChunks := by
  induction icons with
  | nil => intro st; rfl
  | cons hd tl ih => intro st; exact ih (indexIcon st hd n)

theorem loadChunk_chunksIndex (fetch : Nat → Option (List Record))
    (s : APIState) (n : Nat) :
    (loadChunk fetch s n).2.chunksIndex = s.chunksIndex := by
  unfold loadChunk
  by_cases h : jsMapHas s.loadedChunks.cache n
  · rw [if_pos h]
  · rw [if_neg h]
    cases hf : fetch n with
    | some chunk => exact indexIconsFromChunk_chunksIndex _ _ _
    | none => rfl

theorem loadChunk_categoryChunks (fetch : Nat → Option (List Record))
    (s : APIState) (n : Nat) :
    (loadChunk fetch s n).2.categoryChunks = s.categoryChunks := by
  unfold loadChunk
  by_cases h : jsMapHas s.loadedChunks.cache n
  · rw [if_pos h]
  · rw [if_neg h]
    cases hf : fetch n with
    | some chunk => exact indexIconsFromChunk_categoryChunks _ _ _
    | none => rfl

theorem indexIconsFromChunk_locator_isSome (icons : List Record) (n : Nat)
    (id : String) :
    ∀ st : APIState, (jsMapGet st.iconToChunk id).isSome = true →
      (jsMapGet (indexIconsFromChunk st icons n).iconToChunk id).isSome
        = true := by
  induction icons with
  | nil => intro st h; exact h
  | cons hd tl ih =>
    intro st h
    exact ih (indexIcon st hd n) (jsMapGet_isSome_set _ _ _ _ h)

theorem loadChunk_locator_isSome (fetch : Nat → Option (List Record))
    (s : APIState) (n : Nat) (id : String)
    (h : (jsMapGet s.iconToChunk id).isSome = true) :
    (jsMapGet (loadChunk fetch s n).2.iconToChunk id).isSome = true := by
  unfold loadChunk
  by_cases hc : jsMapHas s.loadedChunks.cache n
  · rw [if_pos hc]; exact h
  · rw [if_neg hc]
    cases hf : fetch n with
    | some chunk => exact indexIconsFromChunk_locator_isSome _ _ _ _ h
    | none => exact h

theorem locatedB_indexIcon (st : APIState) (icon : Record) (n : Nat)
    (id : String) (hn : 1 ≤ n) (h : locatedB st id = true) :
    locatedB (indexIcon st icon n) id = true := by
  unfold locatedB at h ⊢
  show (match jsMapGet (jsMapSet st.iconToChunk icon.id n) id with
    | some n => decide (1 ≤ n) | none => false) = true
  by_cases he : icon.id = id
  · subst he
    rw [jsMapGet_set_self]
    simpa using hn
  · rw [jsMapGet_set_ne _ _ _ _ he]
    exact h

theorem locatedB_indexIconsFromChunk (icons : List Record) (n : Nat)
    (id : String) (hn : 1 ≤ n) :
    ∀ st : APIState, locatedB st id = true →
      locatedB (indexIconsFromChunk st icons n) id = true := by
  induction icons with
  | nil => intro st h; exact h
  | cons hd tl ih =>
    intro st h
    exact ih (indexIcon st hd n) (locatedB_indexIcon st hd n id hn h)

theorem locatedB_loadChunk (fetch : Nat → Option (List Record))
    (s : APIState) (n : Nat) (id : String) (hn : 1 ≤ n)
    (h : locatedB s id = true) :
    locatedB (loadChunk fetch s n).2 id = true := by
  unfold loadChunk
  by_cases hc : jsMapHas s.loadedChunks.cache n
  · rw [if_pos hc]; exact h
  · rw [if_neg hc]
    cases hf : fetch n with
    | some chunk => exact locatedB_indexIconsFromChunk _ _ _ hn _ h
    | none => exact h

/-- Indexing a chunk registers the locator entry of every member. -/
theorem indexChunk_locator_of_mem (icons : List Record) (n : Nat) :
    ∀ (st : APIState) (icon : Record), icon ∈ icons →
      jsMapGet (indexIconsFromChunk st icons n).iconToChunk icon.id
        = some n := by
  induction icons with
  | nil => intro st icon h; simp at h
  | cons hd tl ih =>
    intro st icon hmem
    rcases List.mem_cons.mp hmem with h2 | h2
    · subst h2
      apply foldl_indexIcon_locator_keep n icon.id tl (indexIcon st icon n)
      show jsMapGet (jsMapSet st.iconToChunk icon.id n) icon.id = some n
      exact jsMapGet_set_self _ _ _
    · exact ih (indexIcon st hd n) icon h2

theorem indexIconsFromChunk_locator_mem (icons : List Record) (n : Nat) :
    ∀ (st : APIState) (p : String × Nat),
      p ∈ (indexIconsFromChunk st icons n).iconToChunk →
      p ∈ st.iconToChunk ∨ ∃ icon ∈ icons, p = (icon.id, n) := by
  induction icons with
  | nil => intro st p h; exact Or.inl h
  | cons hd tl ih =>
    intro st p h
    rcases ih (indexIcon st hd n) p h with h2 | h2
    · rcases jsMapSet_mem _ _ _ _ h2 with h3 | h3
      · exact Or.inl h3
      · exact Or.inr ⟨hd, List.mem_cons_self _ _, h3⟩
    · obtain ⟨icon, hmem, hp⟩ := h2
      exact Or.inr ⟨icon, List.mem_cons_of_mem _ hmem, hp⟩

theorem indexIconsFromChunk_meta_mem (icons : List Record) (n : Nat) :
    ∀ (st : APIState) (p : String × RecordMetadata),
      p ∈ (indexIconsFromChunk st icons n).iconMetadata →
      p ∈ st.iconMetadata ∨ ∃ icon ∈ icons, p = (icon.id, metadataOf icon) := by
  induction icons with
  | nil => intro st p h; exact Or.inl h
  | cons hd tl ih =>
    intro st p h
    rcases ih (indexIcon st hd n) p h with h2 | h2
    · rcases jsMapSet_mem _ _ _ _ h2 with h3 | h3
      · exact Or.inl h3
      · exact Or.inr ⟨hd, List.mem_cons_self _ _, h3⟩
    · obtain ⟨icon, hmem, hp⟩ := h2
      exact Or.inr ⟨icon, List.mem_cons_of_mem _ hmem, hp⟩

theorem chunkHasIdB_of_mem (fetch : Nat → Option (List Record)) (n : Nat)
    (c : List Record) (r : Record) (hf : fetch n = some c) (hr : r ∈ c) :
    chunkHasIdB fetch n r.id = true := by
  unfold chunkHasIdB
  rw [hf]
  rw [List.any_eq_true]
  exact ⟨r, hr, by simp⟩

theorem fetchChunk_mem_files (net : Network) (n : Nat) (c : List Record)
    (h : net.fetchChunk n = some c) : some c ∈ net.chunkFiles := by
  unfold Network.fetchChunk at h
  by_cases hn : 1 ≤ n
  · rw [if_pos hn] at h
    have hlt : n - 1 < net.chunkFiles.length := by
      by_contra hge
      rw [List.getD_eq_default _ _ (by omega)] at h
      exact Option.noConfusion h
    rw [List.getD_eq_getElem _ _ hlt] at h
    rw [← h]
    exact List.getElem_mem hlt
  · rw [if_neg hn] at h
    exact Option.noConfusion h

theorem provenMetaB_of_mem (net : Network) (n : Nat) (c : List Record)
    (r : Record) (hf : net.fetchChunk n = some c) (hr : r ∈ c) :
    provenMetaB net (metadataOf r) = true := by
  unfold provenMetaB
  rw [List.any_eq_true]
  refine ⟨some c, fetchChunk_mem_files net n c hf, ?_⟩
  rw [List.any_eq_true]
  exact ⟨r, hr, by simp⟩

theorem provenMetaB_elim (net : Network) (m : RecordMetadata)
    (h : provenMetaB net m = true) :
    ∃ n c r, net.fetchChunk n = some c ∧ r ∈ c ∧ metadataOf r = m := by
  unfold provenMetaB at h
  rw [List.any_eq_true] at h
  obtain ⟨o, ho, hinner⟩ := h
  rw [List.any_eq_true] at hinner
  obtain ⟨r, hr, hbeq⟩ := hinner
  have hm : metadataOf r = m := by simpa using hbeq
  obtain ⟨i, hi, hoi⟩ := List.getElem_of_mem ho
  have hc : ∃ c, o = some c ∧ r ∈ c := by
    cases o with
    | none => simp at hr
    | some c => exact ⟨c, rfl, by simpa using hr⟩
  obtain ⟨c, rfl, hrc⟩ := hc
  refine ⟨i + 1, c, r, ?_, hrc, hm⟩
  unfold Network.fetchChunk
  rw [if_pos (by omega)]
  have hidx : i + 1 - 1 = i := by omega
  rw [hidx, List.getD_eq_getElem _ _ hi]
  exact hoi

/-! ## Chunk-load results and invariant preservation -/

theorem loadChunk_of_fetch_some (net : Network) (s : APIState) (n : Nat)
    (c : List Record) (hCS : CacheSound net s)
    (h : net.fetchChunk n = some c) :
    (loadChunk net.fetchChunk s n).1 = c := by
  unfold loadChunk
  by_cases hc : jsMapHas s.loadedChunks.cache n
  · rw [if_pos hc]
    obtain ⟨c2, hg⟩ := Option.isSome_iff_exists.mp (by simpa [jsMapHas] using hc)
    have hmem := jsMapGet_mem _ _ _ hg
    have := hCS (n, c2) hmem
    rw [h] at this
    obtain rfl : c = c2 := by injection this
    simp [hg]
  · rw [if_neg hc, h]

theorem loadChunk_contentOf (net : Network) (s : APIState) (n : Nat)
    (hCS : CacheSound net s) :
    (loadChunk net.fetchChunk s n).1 = contentOf net n := by
  cases h : net.fetchChunk n with
  | some c =>
    rw [loadChunk_of_fetch_some net s n c hCS h]
    simp [contentOf, h]
  | none =>
    unfold loadChunk
    by_cases hc : jsMapHas s.loadedChunks.cache n
    · exfalso
      obtain ⟨c2, hg⟩ :=
        Option.isSome_iff_exists.mp (by simpa [jsMapHas] using hc)
      have := hCS (n, c2) (jsMapGet_mem _ _ _ hg)
      rw [h] at this
      exact Option.noConfusion this
    · rw [if_neg hc, h]
      simp [contentOf, h]

theorem loadChunk_cacheSound (net : Network) (s : APIState) (n : Nat)
    (hCS : CacheSound net s) :
    CacheSound net (loadChunk net.fetchChunk s n).2 := by
  unfold loadChunk
  by_cases hc : jsMapHas s.loadedChunks.cache n
  · rw [if_pos hc]
    intro q hq
    apply hCS
    rwa [LRUCache.get_cache] at hq
  · rw [if_neg hc]
    cases hf : net.fetchChunk n with
    | some chunk =>
      intro q hq
      rw [indexIconsFromChunk_loadedChunks] at hq
      rcases LRUCache.set_mem_cache _ _ _ _ hq with h2 | h2
      · exact hCS q h2
      · rw [h2]
        exact hf
    | none => exact hCS

/-- `loadChunk` preserves all four coherence clauses (for the 1-indexed
chunk numbers the engine passes it). -/
theorem loadChunk_coherent (net : Network) (s : APIState) (n : Nat)
    (hC : Coherent net s) (hn : 1 ≤ n) :
    Coherent net (loadChunk net.fetchChunk s n).2 := by
  obtain ⟨hLS, hCS, hCL, hMS⟩ := hC
  refine ⟨?_, loadChunk_cacheSound net s n hCS, ?_, ?_⟩
  · -- LocatorSound
    unfold loadChunk
    by_cases hc : jsMapHas s.loadedChunks.cache n
    · rw [if_pos hc]; exact hLS
    · rw [if_neg hc]
      cases hf : net.fetchChunk n with
      | some chunk =>
        intro p hp
        rcases indexIconsFromChunk_locator_mem _ _ _ _ hp with h2 | h2
        · exact hLS p h2
        · obtain ⟨icon, hmem, rfl⟩ := h2
          exact ⟨hn, chunkHasIdB_of_mem _ _ _ _ hf hmem⟩
      | none => exact hLS
  · -- CacheLocated
    unfold loadChunk
    by_cases hc : jsMapHas s.loadedChunks.cache n
    · rw [if_pos hc]
      intro q hq r hr
      rw [LRUCache.get_cache] at hq
      exact hCL q hq r hr
    · rw [if_neg hc]
      cases hf : net.fetchChunk n with
      | some chunk =>
        intro q hq r hr
        rw [indexIconsFromChunk_loadedChunks] at hq
        rcases LRUCache.set_mem_cache _ _ _ _ hq with h2 | h2
        · exact indexIconsFromChunk_locator_isSome _ _ _ _ (hCL q h2 r hr)
        · have hrc : r ∈ chunk := by
            have hq2 : q.2 = chunk := by rw [h2]
            rwa [hq2] at hr
          have hreg := indexChunk_locator_of_mem chunk n
            { s with loadedChunks := s.loadedChunks.set n chunk } r hrc
          rw [hreg]
          rfl
      | none => exact hCL
  · -- MetaSound
    unfold loadChunk
    by_cases hc : jsMapHas s.loadedChunks.cache n
    · rw [if_pos hc]; exact hMS
    · rw [if_neg hc]
      cases hf : net.fetchChunk n with
      | some chunk =>
        intro p hp
        rcases indexIconsFromChunk_meta_mem _ _ _ _ hp with h2 | h2
        · obtain ⟨hid, hsome, hpv⟩ := hMS p h2
          exact ⟨hid, indexIconsFromChunk_locator_isSome _ _ _ _ hsome, hpv⟩
        · obtain ⟨icon, hmem, rfl⟩ := h2
          refine ⟨rfl, ?_, provenMetaB_of_mem net n chunk icon hf hmem⟩
          have hreg := indexChunk_locator_of_mem chunk n
            { s with loadedChunks := s.loadedChunks.set n chunk } icon hmem
          rw [hreg]
          rfl
      | none => exact hMS

/-- Everything a record of a `loadChunk` result satisfies: it is registered
in the locator of the resulting state. -/
theorem loadChunk_registers (net : Network) (s : APIState) (n : Nat)
    (hC : Coherent net s) (r : Record)
    (hr : r ∈ (loadChunk net.fetchChunk s n).1) :
    (jsMapGet (loadChunk net.fetchChunk s n).2.iconToChunk r.id).isSome
      = true := by
  obtain ⟨hLS, hCS, hCL, hMS⟩ := hC
  unfold loadChunk at hr ⊢
  by_cases hc : jsMapHas s.loadedChunks.cache n
  · rw [if_pos hc] at hr ⊢
    obtain ⟨c2, hg⟩ := Option.isSome_iff_exists.mp (by simpa [jsMapHas] using hc)
    have hr2 : r ∈ c2 := by
      rw [hg] at hr
      simpa using hr
    exact hCL (n, c2) (jsMapGet_mem _ _ _ hg) r hr2
  · rw [if_neg hc] at hr ⊢
    cases hf : net.fetchChunk n with
    | some chunk =>
      rw [hf] at hr
      have := indexChunk_locator_of_mem chunk n
        ({ s with loadedChunks := s.loadedChunks.set n chunk }) r hr
      rw [this]
      rfl
    | none =>
      rw [hf] at hr
      simp at hr

theorem loadChunksList_cacheSound (net : Network) :
    ∀ (ns : List Nat) (s : APIState), CacheSound net s →
      CacheSound net (loadChunksList net.fetchChunk s ns).2 := by
  intro ns
  induction ns with
  | nil => intro s h; exact h
  | cons n rest ih =>
    intro s h
    exact ih _ (loadChunk_cacheSound net s n h)

theorem loadChunksList_coherent (net : Network) :
    ∀ (ns : List Nat) (s : APIState), Coherent net s →
      (∀ n ∈ ns, 1 ≤ n) →
      Coherent net (loadChunksList net.fetchChunk s ns).2 := by
  intro ns
  induction ns with
  | nil => intro s h _; exact h
  | cons n rest ih =>
    intro s h hns
    exact ih _ (loadChunk_coherent net s n h (hns n (List.mem_cons_self _ _)))
      (fun m hm => hns m (List.mem_cons_of_mem _ hm))

theorem loadChunksList_locator_isSome (fetch : Nat → Option (List Record))
    (id : String) :
    ∀ (ns : List Nat) (s : APIState),
      (jsMapGet s.iconToChunk id).isSome = true →
      (jsMapGet (loadChunksList fetch s ns).2.iconToChunk id).isSome
        = true := by
  intro ns
  induction ns with
  | nil => intro s h; exact h
  | cons n rest ih =>
    intro s h
    exact ih _ (loadChunk_locator_isSome fetch s n id h)

theorem loadChunksList_locatedB (fetch : Nat → Option (List Record))
    (id : String) :
    ∀ (ns : List Nat) (s : APIState), (∀ n ∈ ns, 1 ≤ n) →
      locatedB s id = true →
      locatedB (loadChunksList fetch s ns).2 id = true := by
  intro ns
  induction ns with
  | nil => intro s _ h; exact h
  | cons n rest ih =>
    intro s hns h
    exact ih _ (fun m hm => hns m (List.mem_cons_of_mem _ hm))
      (locatedB_loadChunk fetch s n id (hns n (List.mem_cons_self _ _)) h)

theorem loadChunksList_results (net : Network) :
    ∀ (ns : List Nat) (s : APIState), CacheSound net s →
      (loadChunksList net.fetchChunk s ns).1 = ns.map (contentOf net) := by
  intro ns
  induction ns with
  | nil => intro s _; rfl
  | cons n rest ih =>
    intro s h
    show (loadChunk net.fetchChunk s n).1
        :: (loadChunksList net.fetchChunk (loadChunk net.fetchChunk s n).2
          rest).1
      = contentOf net n :: rest.map (contentOf net)
    rw [loadChunk_contentOf net s n h,
      ih _ (loadChunk_cacheSound net s n h)]

theorem loadChunksList_chunksIndex (fetch : Nat → Option (List Record)) :
    ∀ (ns : List Nat) (s : APIState),
      (loadChunksList fetch s ns).2.chunksIndex = s.chunksIndex := by
  intro ns
  induction ns with
  | nil => intro s; rfl
  | cons n rest ih =>
    intro s
    rw [show (loadChunksList fetch s (n :: rest)).2
      = (loadChunksList fetch (loadChunk fetch s n).2 rest).2 from rfl]
    rw [ih, loadChunk_chunksIndex]

/-! ## getIcon lookup (claim C4) -/

theorem find?_id_of_hasId (c : List Record) (id : String)
    (h : ∃ r ∈ c, r.id = id) :
    ∃ r, c.find? (fun r => r.id == id) = some r ∧ r.id = id ∧ r ∈ c := by
  have hsome : (c.find? (fun r => r.id == id)).isSome := by
    rw [List.find?_isSome]
    obtain ⟨r, hr, hid⟩ := h
    exact ⟨r, hr, by simp [hid]⟩
  obtain ⟨r, hr⟩ := Option.isSome_iff_exists.mp hsome
  exact ⟨r, hr, by simpa using List.find?_some hr,
    List.mem_of_find?_eq_some hr⟩

theorem chunkHasIdB_elim (fetch : Nat → Option (List Record)) (n : Nat)
    (id : String) (h : chunkHasIdB fetch n id = true) :
    ∃ c, fetch n = some c ∧ ∃ r ∈ c, r.id = id := by
  unfold chunkHasIdB at h
  cases hf : fetch n with
  | none => rw [hf] at h; simp at h
  | some c =>
    rw [hf] at h
    rw [List.any_eq_true] at h
    obtain ⟨r, hr, hid⟩ := h
    exact ⟨c, rfl, r, hr, by simpa using hid⟩

theorem fetchChunk_bounds (net : Network) (n : Nat) (c : List Record)
    (h : net.fetchChunk n = some c) : 1 ≤ n ∧ n ≤ net.chunkFiles.length := by
  unfold Network.fetchChunk at h
  by_cases hn : 1 ≤ n
  · refine ⟨hn, ?_⟩
    rw [if_pos hn] at h
    by_contra hge
    rw [List.getD_eq_default _ _ (by omega)] at h
    exact Option.noConfusion h
  · rw [if_neg hn] at h
    exact Option.noConfusion h

theorem mem_range'_one (m k : Nat) :
    m ∈ List.range' 1 k ↔ 1 ≤ m ∧ m ≤ k := by
  rw [List.mem_range']
  constructor
  · rintro ⟨i, hi, rfl⟩; omega
  · rintro ⟨h1, h2⟩; exact ⟨m - 1, by omega, by omega⟩

theorem findInLoadedChunks_some (cache : List (Nat × List Record))
    (id : String) (r : Record) (h : findInLoadedChunks cache id = some r) :
    ∃ q ∈ cache, r ∈ q.2 ∧ r.id = id := by
  induction cache with
  | nil => simp [findInLoadedChunks] at h
  | cons q rest ih =>
    obtain ⟨m, chunkData⟩ := q
    unfold findInLoadedChunks at h
    cases hf : chunkData.find? (fun x => x.id == id) with
    | some x =>
      rw [hf] at h
      obtain rfl : x = r := by injection h
      exact ⟨(m, chunkData), List.mem_cons_self _ _,
        List.mem_of_find?_eq_some hf, by simpa using List.find?_some hf⟩
    | none =>
      rw [hf] at h
      obtain ⟨q2, hq2, hr2, hid2⟩ := ih h
      exact ⟨q2, List.mem_cons_of_mem _ hq2, hr2, hid2⟩

theorem loadChunk_find_none (net : Network) (s : APIState) (n : Nat)
    (iconId : String) (hCS : CacheSound net s)
    (hid : chunkHasIdB net.fetchChunk n iconId = false) :
    (loadChunk net.fetchChunk s n).1.find? (fun r => r.id == iconId)
      = none := by
  rw [List.find?_eq_none]
  intro x hx
  rw [loadChunk_contentOf net s n hCS] at hx
  unfold contentOf at hx
  cases hf : net.fetchChunk n with
  | none => rw [hf] at hx; simp at hx
  | some c =>
    rw [hf] at hx
    simp only [Option.getD_some] at hx
    intro hbeq
    have hxid : x.id = iconId := by simpa using hbeq
    have := chunkHasIdB_of_mem net.fetchChunk n c x hf hx
    rw [hxid] at this
    rw [hid] at this
    exact Bool.noConfusion this

theorem scanChunksList_found (net : Network) (iconId : String) :
    ∀ (ns : List Nat) (s : APIState), Coherent net s →
      (∀ n ∈ ns, 1 ≤ n) →
      (∃ n ∈ ns, chunkHasIdB net.fetchChunk n iconId = true) →
      ∃ r s2, scanChunksList net s iconId ns = (some r, s2) ∧ r.id = iconId
        ∧ (jsMapGet s2.iconToChunk iconId).isSome = true := by
  intro ns
  induction ns with
  | nil => intro s _ _ hex; simp at hex
  | cons n rest ih =>
    intro s hC hpos hex
    by_cases hid : chunkHasIdB net.fetchChunk n iconId = true
    · obtain ⟨c, hf, hr⟩ := chunkHasIdB_elim net.fetchChunk n iconId hid
      have hload := loadChunk_of_fetch_some net s n c hC.2.1 hf
      obtain ⟨r, hfind, hid2, hrc⟩ := find?_id_of_hasId c iconId hr
      refine ⟨r, (loadChunk net.fetchChunk s n).2, ?_, hid2, ?_⟩
      · show (match (loadChunk net.fetchChunk s n).1.find?
            (fun x => x.id == iconId) with
          | some x => (some x, (loadChunk net.fetchChunk s n).2)
          | none => scanChunksList net (loadChunk net.fetchChunk s n).2
              iconId rest) = _
        rw [hload, hfind]
      · have hreg := loadChunk_registers net s n hC r
          (by rw [hload]; exact hrc)
        rw [← hid2]
        exact hreg
    · have hnone := loadChunk_find_none net s n iconId hC.2.1
        (Bool.eq_false_iff.mpr hid)
      have hstep : scanChunksList net s iconId (n :: rest)
          = scanChunksList net (loadChunk net.fetchChunk s n).2 iconId rest := by
        show (match (loadChunk net.fetchChunk s n).1.find?
            (fun x => x.id == iconId) with
          | some x => (some x, (loadChunk net.fetchChunk s n).2)
          | none => scanChunksList net (loadChunk net.fetchChunk s n).2
              iconId rest) = _
        rw [hnone]
      rw [hstep]
      have hex2 : ∃ m ∈ rest, chunkHasIdB net.fetchChunk m iconId = true := by
        obtain ⟨m, hm, hmid⟩ := hex
        rcases List.mem_cons.mp hm with h2 | h2
        · subst h2; exact absurd hmid hid
        · exact ⟨m, h2, hmid⟩
      exact ih _ (loadChunk_coherent net s n hC (hpos n (List.mem_cons_self _ _)))
        (fun m hm => hpos m (List.mem_cons_of_mem _ hm)) hex2

theorem scanChunksList_notfound (net : Network) (iconId : String) :
    ∀ (ns : List Nat) (s : APIState), CacheSound net s →
      (∀ n ∈ ns, chunkHasIdB net.fetchChunk n iconId = false) →
      ∃ s2, scanChunksList net s iconId ns = (none, s2) := by
  intro ns
  induction ns with
  | nil => intro s _ _; exact ⟨s, rfl⟩
  | cons n rest ih =>
    intro s hCS hall
    have hnone := loadChunk_find_none net s n iconId hCS
      (hall n (List.mem_cons_self _ _))
    have hstep : scanChunksList net s iconId (n :: rest)
        = scanChunksList net (loadChunk net.fetchChunk s n).2 iconId rest := by
      show (match (loadChunk net.fetchChunk s n).1.find?
          (fun x => x.id == iconId) with
        | some x => (some x, (loadChunk net.fetchChunk s n).2)
        | none => scanChunksList net (loadChunk net.fetchChunk s n).2
            iconId rest) = _
      rw [hnone]
    rw [hstep]
    exact ih _ (loadChunk_cacheSound net s n hCS)
      (fun m hm => hall m (List.mem_cons_of_mem _ hm))

theorem loadChunksIndex_ok (net : Network) (s : APIState) (idx : ChunksIndex)
    (hIC : IndexCons net s) (hIdx : net.effIndex = some idx) :
    loadChunksIndex net s = (Except.ok idx, s)
    ∨ loadChunksIndex net s
        = (Except.ok idx, { s with chunksIndex := some idx }) := by
  unfold loadChunksIndex
  cases hsi : s.chunksIndex with
  | some i =>
    left
    have := hIC i hsi
    rw [hIdx] at this
    obtain rfl : idx = i := by injection this
    rfl
  | none =>
    right
    rw [hIdx]

/-- Claim C4: under locator/cache/metadata coherence with the static files,
a loadable manifest whose `total_chunks` covers the chunk files, `getIcon`
returns a record with the requested id whenever some chunk file contains
one (fast path, cached scan, or ascending scan), and the locator holds the
id afterwards; and it throws `RecordNotFound` exactly when no chunk
contains the id. -/
theorem C4_getIcon_lookup (net : Network) (s : APIState) (iconId : String)
    (idx : ChunksIndex) (hC : Coherent net s) (hIC : IndexCons net s)
    (hIdx : net.effIndex = some idx)
    (hTot : idx.total_chunks = net.chunkFiles.length) :
    ((∃ n, chunkHasIdB net.fetchChunk n iconId = true) →
      ∃ r s2, getIcon net s iconId = (Except.ok (some r), s2)
        ∧ r.id = iconId ∧ (jsMapGet s2.iconToChunk iconId).isSome = true)
    ∧ ((∀ n, chunkHasIdB net.fetchChunk n iconId = false) →
      ∃ s2, getIcon net s iconId
        = (Except.error ApiError.recordNotFound, s2)) := by
  cases hloc : jsMapGet s.iconToChunk iconId with
  | some n =>
    obtain ⟨hn, hhas⟩ := hC.1 (iconId, n) (jsMapGet_mem _ _ _ hloc)
    constructor
    · intro _
      obtain ⟨c, hf, hr⟩ := chunkHasIdB_elim net.fetchChunk n iconId hhas
      have hload := loadChunk_of_fetch_some net s n c hC.2.1 hf
      obtain ⟨r, hfind, hid2, hrc⟩ := find?_id_of_hasId c iconId hr
      have hn2 : 1 ≤ n := hn
      refine ⟨r, (loadChunk net.fetchChunk s n).2, ?_, hid2, ?_⟩
      · unfold getIcon
        rw [hloc]
        show (if n = 0 then getIconSlow net s iconId
          else (Except.ok ((loadChunk net.fetchChunk s n).1.find?
            (fun x => x.id == iconId)), (loadChunk net.fetchChunk s n).2)) = _
        rw [if_neg (by omega)]
        rw [hload, hfind]
      · exact loadChunk_locator_isSome net.fetchChunk s n iconId
          (by rw [hloc]; rfl)
    · intro hall
      exfalso
      have := hall n
      rw [hhas] at this
      exact Bool.noConfusion this
  | none =>
    have hslow : getIcon net s iconId = getIconSlow net s iconId := by
      unfold getIcon
      rw [hloc]
    cases hfind : findInLoadedChunks s.loadedChunks.cache iconId with
    | some r =>
      exfalso
      obtain ⟨q, hq, hr, hid⟩ := findInLoadedChunks_some _ _ _ hfind
      have := hC.2.2.1 q hq r hr
      rw [hid, hloc] at this
      exact Bool.noConfusion this
    | none =>
      have hcoh1 : ∀ s1, loadChunksIndex net s = (Except.ok idx, s1) →
          (Coherent net s1 ∧ jsMapGet s1.iconToChunk iconId = none) := by
        intro s1 h1
        rcases loadChunksIndex_ok net s idx hIC hIdx with h2 | h2
        · rw [h1] at h2
          obtain rfl : s1 = s := congrArg Prod.snd h2
          exact ⟨hC, hloc⟩
        · rw [h1] at h2
          have hs1 : s1 = { s with chunksIndex := some idx } :=
            congrArg Prod.snd h2
          subst hs1
          exact ⟨hC, hloc⟩
      rcases loadChunksIndex_ok net s idx hIC hIdx with hL | hL
      all_goals {
        obtain ⟨hC1, _⟩ := hcoh1 _ hL
        constructor
        · intro hex
          obtain ⟨n, hhas⟩ := hex
          obtain ⟨c, hf, _⟩ := chunkHasIdB_elim net.fetchChunk n iconId hhas
          obtain ⟨h1n, h2n⟩ := fetchChunk_bounds net n c hf
          have hmem : n ∈ List.range' 1 idx.total_chunks := by
            rw [mem_range'_one]
            omega
          obtain ⟨r, s2, hscan, hid, hreg⟩ :=
            scanChunksList_found net iconId (List.range' 1 idx.total_chunks)
              _ hC1 (fun m hm => ((mem_range'_one m _).mp hm).1)
              ⟨n, hmem, hhas⟩
          refine ⟨r, s2, ?_, hid, hreg⟩
          rw [hslow]
          unfold getIconSlow
          simp only [hfind, hL, hscan]
        · intro hall
          obtain ⟨s2, hscan⟩ := scanChunksList_notfound net iconId
            (List.range' 1 idx.total_chunks) _ hC1.2.1
            (fun m _ => hall m)
          refine ⟨s2, ?_⟩
          rw [hslow]
          unfold getIconSlow
          simp only [hfind, hL, hscan]
      }

/-- Witness for C4: from a cold engine state, `homework` (sitting in the
unindexed chunk 2 of `netHome`) is found by the ascending scan and
registered in the locator; a nonexistent id throws `RecordNotFound`. -/
theorem C4_getIcon_lookup_witness :
    (∃ r s2, getIcon netHome initialState "homework"
        = (Except.ok (some r), s2) ∧ r.id = "homework"
        ∧ (jsMapGet s2.iconToChunk "homework").isSome = true)
    ∧ (∃ s2, getIcon netHome initialState "nope"
        = (Except.error ApiError.recordNotFound, s2)) := by
  have hcoh : Coherent netHome initialState := by decide
  have hic : IndexCons netHome initialState := fun i h => Option.noConfusion h
  have h1 := C4_getIcon_lookup netHome initialState "homework"
    { total_icons := 3, chunk_size := 50, total_chunks := 2 } hcoh hic rfl rfl
  have h2 := C4_getIcon_lookup netHome initialState "nope"
    { total_icons := 3, chunk_size := 50, total_chunks := 2 } hcoh hic rfl rfl
  have hall : ∀ n, chunkHasIdB netHome.fetchChunk n "nope" = false := by
    intro n
    match n with
    | 0 => decide
    | 1 => decide
    | 2 => decide
    | (m + 3) =>
      have hf : netHome.fetchChunk (m + 3) = none := by
        show (if 1 ≤ m + 3 then netHome.chunkFiles.getD (m + 3 - 1) none
          else none) = none
        rw [if_pos (by omega)]
        have h3 : m + 3 - 1 = m + 2 := by omega
        rw [h3]
        rfl
      unfold chunkHasIdB
      rw [hf]
  exact ⟨h1.1 ⟨2, by decide⟩, h2.2 hall⟩

/-! ## Sorting is a permutation; resolution yields full records (claim C5) -/

theorem jsSortInsert_perm {α : Type} (cmp : α → α → Int) (x : α)
    (l : List α) : List.Perm (jsSortInsert cmp x l) (x :: l) := by
  induction l with
  | nil => exact List.Perm.refl _
  | cons y ys ih =>
    unfold jsSortInsert
    by_cases h : cmp y x ≤ 0
    · rw [if_pos h]
      exact (ih.cons y).trans (List.Perm.swap x y ys)
    · rw [if_neg h]

theorem jsSortFold_perm {α : Type} (cmp : α → α → Int) :
    ∀ (l acc : List α),
      List.Perm (l.foldl (fun a x => jsSortInsert cmp x a) acc) (acc ++ l) := by
  intro l
  induction l with
  | nil => intro acc; simp
  | cons x xs ih =>
    intro acc
    rw [List.foldl_cons]
    refine (ih (jsSortInsert cmp x acc)).trans ?_
    refine ((jsSortInsert_perm cmp x acc).append_right xs).trans ?_
    exact List.perm_middle.symm

theorem jsSort_perm {α : Type} (cmp : α → α → Int) (l : List α) :
    List.Perm (jsSort cmp l) l := by
  have h := jsSortFold_perm cmp l []
  simpa [jsSort] using h

theorem searchCandidates_mem (s : APIState) (query : String)
    (m : RecordMetadata) (h : m ∈ searchCandidates s query) :
    ∃ id0, jsMapGet s.iconMetadata id0 = some m := by
  unfold searchCandidates at h
  rw [(jsSort_perm _ _).mem_iff] at h
  obtain ⟨id0, _, hg⟩ := List.mem_filterMap.mp h
  exact ⟨id0, hg⟩

theorem foldl_reqChunks_pos (s : APIState) :
    ∀ (ms : List RecordMetadata) (acc : List Nat), (∀ n ∈ acc, 1 ≤ n) →
      ∀ n ∈ ms.foldl (fun acc m =>
          match jsMapGet s.iconToChunk m.id with
          | some k => if k = 0 then acc else jsSetAdd acc k
          | none => acc) acc, 1 ≤ n := by
  intro ms
  induction ms with
  | nil => intro acc hacc n hn; exact hacc n hn
  | cons m rest ih =>
    intro acc hacc
    rw [List.foldl_cons]
    cases hg : jsMapGet s.iconToChunk m.id with
    | none =>
      simp only [hg]
      exact ih _ hacc
    | some k =>
      simp only [hg]
      by_cases hk : k = 0
      · rw [if_pos hk]
        exact ih _ hacc
      · rw [if_neg hk]
        apply ih
        intro n2 hn2
        rcases (jsSetAdd_mem_iff acc k n2).mp hn2 with h2 | h2
        · exact hacc n2 h2
        · subst h2; omega

theorem requiredChunksOf_pos (s : APIState) (ms : List RecordMetadata) :
    ∀ n ∈ requiredChunksOf s ms, 1 ≤ n :=
  fun n hn => foldl_reqChunks_pos s ms [] (by simp) n hn

theorem locatedB_elim (s : APIState) (id : String)
    (h : locatedB s id = true) :
    ∃ n, jsMapGet s.iconToChunk id = some n ∧ 1 ≤ n := by
  unfold locatedB at h
  cases hg : jsMapGet s.iconToChunk id with
  | none => rw [hg] at h; exact Bool.noConfusion h
  | some n => rw [hg] at h; exact ⟨n, rfl, by simpa using h⟩

theorem getFullIconData_fastpath (fetch : Nat → Option (List Record))
    (s : APIState) (id : String) (n : Nat)
    (hg : jsMapGet s.iconToChunk id = some n) (hn : 1 ≤ n) :
    getFullIconData fetch s id
      = (((loadChunk fetch s n).1.find? (fun r => r.id == id)).map
          IconData.full, (loadChunk fetch s n).2) := by
  unfold getFullIconData
  rw [hg]
  show (if n = 0 then getFullIconDataFallback s id
    else (((loadChunk fetch s n).1.find? (fun r => r.id == id)).map
      IconData.full, (loadChunk fetch s n).2)) = _
  rw [if_neg (by omega)]

theorem resolveAll_shape (fetch : Nat → Option (List Record)) :
    ∀ (ms : List RecordMetadata) (s : APIState),
      (∀ m ∈ ms, locatedB s m.id = true) →
      (resolveAll fetch s ms).1.length ≤ ms.length
      ∧ ∀ d ∈ (resolveAll fetch s ms).1, ∃ r : Record, d = IconData.full r := by
  intro ms
  induction ms with
  | nil =>
    intro s _
    exact ⟨by simp [resolveAll], by intro d hd; simp [resolveAll] at hd⟩
  | cons m rest ih =>
    intro s h
    obtain ⟨n, hg, hn⟩ := locatedB_elim s m.id (h m (List.mem_cons_self _ _))
    have hfast := getFullIconData_fastpath fetch s m.id n hg hn
    have hrest : ∀ m2 ∈ rest, locatedB (loadChunk fetch s n).2 m2.id = true :=
      fun m2 hm2 => locatedB_loadChunk fetch s n m2.id hn
        (h m2 (List.mem_cons_of_mem _ hm2))
    obtain ⟨ihlen, ihshape⟩ := ih _ hrest
    have hstep : resolveAll fetch s (m :: rest)
        = match (getFullIconData fetch s m.id).1 with
          | some icon =>
            (icon :: (resolveAll fetch (getFullIconData fetch s m.id).2 rest).1,
             (resolveAll fetch (getFullIconData fetch s m.id).2 rest).2)
          | none =>
            ((resolveAll fetch (getFullIconData fetch s m.id).2 rest).1,
             (resolveAll fetch (getFullIconData fetch s m.id).2 rest).2) := rfl
    rw [hstep, hfast]
    cases hfound : (loadChunk fetch s n).1.find? (fun r => r.id == m.id) with
    | some r =>
      simp only [Option.map_some']
      constructor
      · simp only [List.length_cons]
        omega
      · intro d hd
        rcases List.mem_cons.mp hd with h2 | h2
        · exact ⟨r, h2⟩
        · exact ihshape d h2
    | none =>
      simp only [Option.map_none']
      exact ⟨Nat.le_succ_of_le ihlen, ihshape⟩

/-- Claim C5: every element `searchIcons` returns is a full `Record`
(carrying `svgContent`) coming out of a chunk — never a bare metadata
object — provided every indexed metadata entry still has a usable locator
entry keyed by its own id (true of all reachable states, stale or not);
a candidate whose id cannot be resolved in the loaded chunk is silently
dropped (the result can only shrink below the candidate count), and the
call always returns a result list rather than raising. -/
theorem C5_search_full_records (fetch : Nat → Option (List Record))
    (s : APIState) (q : String) (limit : Nat)
    (hML : MetaLocated s)
    (hid : ∀ p ∈ s.iconMetadata, p.2.id = p.1) :
    (∀ d ∈ (searchIcons fetch s (some q) limit).1,
      ∃ r : Record, d = IconData.full r)
    ∧ (searchIcons fetch s (some q) limit).1.length
        ≤ ((searchCandidates s (jsQuery q)).take limit).length := by
  by_cases hq : q.data.length < 2
  · rw [searchIcons_guard_short fetch s limit q hq]
    exact ⟨by intro d hd; simp at hd, by simp⟩
  · rw [searchIcons_run fetch s limit q (by omega)]
    unfold searchResolve
    have hms : ∀ m ∈ (searchCandidates s (jsQuery q)).take limit,
        locatedB s m.id = true := by
      intro m hm
      have hm2 : m ∈ searchCandidates s (jsQuery q) :=
        (List.take_sublist _ _).subset hm
      obtain ⟨id0, hg⟩ := searchCandidates_mem s (jsQuery q) m hm2
      have hpm := jsMapGet_mem _ _ _ hg
      have hmid : m.id = id0 := hid _ hpm
      rw [hmid]
      exact hML _ hpm
    have hpos := requiredChunksOf_pos s ((searchCandidates s (jsQuery q)).take limit)
    have hs1 : ∀ m ∈ (searchCandidates s (jsQuery q)).take limit,
        locatedB (loadChunksList fetch s
          (requiredChunksOf s ((searchCandidates s (jsQuery q)).take limit))).2
          m.id = true := by
      intro m hm
      exact loadChunksList_locatedB fetch m.id _ s hpos (hms m hm)
    obtain ⟨hlen, hshape⟩ := resolveAll_shape fetch
      ((searchCandidates s (jsQuery q)).take limit) _ hs1
    exact ⟨hshape, hlen⟩

/-- Witness for C5: a stale index (`ghost` is indexed but its chunk no
longer contains it) makes the single candidate drop silently: the result
is `[]` (every element vacuously a full record), with one candidate and no
exception. -/
theorem C5_search_full_records_witness :
    MetaLocated stateStale
    ∧ (∀ d ∈ (searchIcons netFourth.fetchChunk stateStale
        (some "ghost") 10).1, ∃ r : Record, d = IconData.full r)
    ∧ (searchIcons netFourth.fetchChunk stateStale (some "ghost") 10).1 = []
    ∧ ((searchCandidates stateStale (jsQuery "ghost")).take 10).length = 1 := by
  have h := C5_search_full_records netFourth.fetchChunk stateStale "ghost" 10
    (by decide) (by decide)
  exact ⟨by decide, h.1, by decide, by decide⟩

/-! ## Pagination (claim C9) -/

theorem cacheSound_congr (net : Network) (s s2 : APIState)
    (h : s2.loadedChunks = s.loadedChunks) (hCS : CacheSound net s) :
    CacheSound net s2 := by
  intro q hq
  apply hCS
  rwa [h] at hq

theorem loadChunksIndex_fields (net : Network) (s : APIState)
    (idx : ChunksIndex) (hIC : IndexCons net s)
    (hIdx : net.effIndex = some idx) :
    ∃ s1, loadChunksIndex net s = (Except.ok idx, s1)
      ∧ s1.loadedChunks = s.loadedChunks ∧ s1.iconToChunk = s.iconToChunk
      ∧ s1.iconMetadata = s.iconMetadata ∧ s1.searchIndex = s.searchIndex
      ∧ s1.categoryChunks = s.categoryChunks
      ∧ s1.chunksIndex = some idx := by
  cases hsi : s.chunksIndex with
  | some i =>
    have h := hIC i hsi
    rw [hIdx] at h
    obtain rfl : idx = i := by injection h
    refine ⟨s, ?_, rfl, rfl, rfl, rfl, rfl, hsi⟩
    unfold loadChunksIndex
    rw [hsi]
  | none =>
    refine ⟨{ s with chunksIndex := some idx }, ?_, rfl, rfl, rfl, rfl, rfl,
      rfl⟩
    unfold loadChunksIndex
    rw [hsi, hIdx]

/-- The no-search, no-category path of `getIcons`: the first
`ceil(limit / 50)` chunk files (clamped to the manifest's count) are
loaded and concatenated in order, and the first `limit` records are
returned as full records. -/
theorem getIcons_chunkPath_eq (net : Network) (s : APIState) (limit : Nat)
    (idx : ChunksIndex) (hCS : CacheSound net s) (hIC : IndexCons net s)
    (hIdx : net.effIndex = some idx) :
    ∃ s2, getIcons net s limit none none
      = (Except.ok ((((List.range' 1 (min ((limit + 49) / 50)
            idx.total_chunks)).map (contentOf net)).flatten.take limit).map
          IconData.full), s2)
      ∧ CacheSound net s2 ∧ IndexCons net s2
      ∧ s2.chunksIndex = some idx := by
  obtain ⟨s1, hL, hlc, hitc, him, hsij, hcc, hci⟩ :=
    loadChunksIndex_fields net s idx hIC hIdx
  have hCS1 : CacheSound net s1 := cacheSound_congr net s s1 hlc hCS
  have hres := loadChunksList_results net
    (List.range' 1 (min ((limit + 49) / 50) idx.total_chunks)) s1 hCS1
  refine ⟨(loadChunksList net.fetchChunk s1
    (List.range' 1 (min ((limit + 49) / 50) idx.total_chunks))).2, ?_, ?_, ?_,
    ?_⟩
  · have hgi : getIcons net s limit none none
        = getIconsChunkPath net s limit none none := rfl
    rw [hgi]
    unfold getIconsChunkPath
    rw [hL]
    simp only [catTruthy]
    rw [hres]
  · exact loadChunksList_cacheSound net _ _ hCS1
  · intro i hi
    rw [loadChunksList_chunksIndex, hci] at hi
    obtain rfl : idx = i := by injection hi
    exact hIdx
  · rw [loadChunksList_chunksIndex, hci]

theorem take_flatten_take {α : Type} (A B : List α) (m n : Nat)
    (hmn : m ≤ n) :
    ((A ++ B).take n).take (A.take m).length = A.take m := by
  have hlen : (A.take m).length = min m A.length := List.length_take m A
  rw [List.take_take]
  have h1 : min (A.take m).length n = (A.take m).length := by
    rw [hlen]; omega
  rw [h1]
  rw [List.take_append_of_le_length (by rw [hlen]; omega)]
  rw [hlen]
  rcases Nat.le_total m A.length with h | h
  · rw [Nat.min_eq_left h]
  · rw [Nat.min_eq_right h, List.take_all_of_le (le_refl _),
      List.take_all_of_le h]

/-- Claim C9: with the static files unchanged and no category/search
parameters, `getIcons({limit: 100})` followed by `getIcons({limit: 200})`
returns a prefix-compatible superset: the second result extends the first,
and when the first holds 100 entries they are exactly the second's first
100, in order. -/
theorem C9_pagination (net : Network) (s : APIState) (idx : ChunksIndex)
    (hCS : CacheSound net s) (hIC : IndexCons net s)
    (hIdx : net.effIndex = some idx) :
    ∃ r1 s1 r2 s2,
      getIcons net s 100 none none = (Except.ok r1, s1)
      ∧ getIcons net s1 200 none none = (Except.ok r2, s2)
      ∧ r2.take r1.length = r1
      ∧ (r1.length = 100 → r2.take 100 = r1) := by
  obtain ⟨s1, h1, hCS1, hIC1, _⟩ :=
    getIcons_chunkPath_eq net s 100 idx hCS hIC hIdx
  obtain ⟨s2, h2, _, _, _⟩ :=
    getIcons_chunkPath_eq net s1 200 idx hCS1 hIC1 hIdx
  have hk : (100 + 49) / 50 = 2 := by norm_num
  have hk2 : (200 + 49) / 50 = 4 := by norm_num
  rw [hk] at h1
  rw [hk2] at h2
  set k1 := min 2 idx.total_chunks with hk1def
  set k2 := min 4 idx.total_chunks with hk2def
  have hk12 : k1 ≤ k2 := by omega
  have hsplit : List.range' 1 k2
      = List.range' 1 k1 ++ List.range' (1 + k1) (k2 - k1) := by
    have := List.range'_append 1 k1 (k2 - k1) 1
    rw [show 1 * k1 = k1 by omega] at this
    rw [this]
    congr 1
    omega
  set A := ((List.range' 1 k1).map (contentOf net)).flatten with hA
  set B := ((List.range' (1 + k1) (k2 - k1)).map (contentOf net)).flatten
    with hB
  have hAB : ((List.range' 1 k2).map (contentOf net)).flatten = A ++ B := by
    rw [hsplit, List.map_append, List.flatten_append]
  rw [hAB] at h2
  refine ⟨(A.take 100).map IconData.full, s1,
    (((A ++ B).take 200).map IconData.full), s2, h1, h2, ?_, ?_⟩
  · rw [List.length_map, ← List.map_take, take_flatten_take A B 100 200
      (by omega)]
  · intro hlen
    rw [List.length_map] at hlen
    have hfirst : ((((A ++ B).take 200).map IconData.full)).take
        (((A.take 100).map IconData.full)).length
        = (A.take 100).map IconData.full := by
      rw [List.length_map, ← List.map_take,
        take_flatten_take A B 100 200 (by omega)]
    rw [List.length_map, hlen] at hfirst
    exact hfirst

/-- Witness for C9 against `netHome` from a cold state (all three records
fit in the first two chunks). -/
theorem C9_pagination_witness :
    (∃ r1 s1 r2 s2,
      getIcons netHome initialState 100 none none = (Except.ok r1, s1)
      ∧ getIcons netHome s1 200 none none = (Except.ok r2, s2)
      ∧ r2.take r1.length = r1
      ∧ (r1.length = 100 → r2.take 100 = r1))
    ∧ (getIcons netHome initialState 100 none none).1
        = Except.ok [IconData.full recHome, IconData.full recHomeOutline,
            IconData.full recHomework] := by
  refine ⟨C9_pagination netHome initialState
    { total_icons := 3, chunk_size := 50, total_chunks := 2 }
    (by decide) (fun i h => Option.noConfusion h) rfl, by rfl⟩

/-! ## Search completeness and ordering (claim C3) -/

theorem searchCmp_le_total (query : String) (a b : RecordMetadata) :
    searchCmp query a b ≤ 0 ∨ searchCmp query b a ≤ 0 := by
  unfold searchCmp
  cases hA : jsIncludes (jsLower a.name) query <;>
    cases hB : jsIncludes (jsLower b.name) query <;>
      simp [hA, hB] <;> omega

theorem searchCmp_le_trans (query : String) (a b c : RecordMetadata) :
    searchCmp query a b ≤ 0 → searchCmp query b c ≤ 0 →
      searchCmp query a c ≤ 0 := by
  unfold searchCmp
  cases hA : jsIncludes (jsLower a.name) query <;>
    cases hB : jsIncludes (jsLower b.name) query <;>
      cases hC2 : jsIncludes (jsLower c.name) query <;>
        simp [hA, hB, hC2] <;> omega

theorem searchCmp_le_iff (query : String) (a b : RecordMetadata) :
    searchCmp query a b ≤ 0 ↔ rankedBefore query a.name b.name := by
  unfold searchCmp rankedBefore
  cases hA : jsIncludes (jsLower a.name) query <;>
    cases hB : jsIncludes (jsLower b.name) query <;>
      simp [hA, hB] <;> omega

theorem jsSortInsert_mem {α : Type} (cmp : α → α → Int) (x z : α)
    (l : List α) (h : z ∈ jsSortInsert cmp x l) : z = x ∨ z ∈ l :=
  List.mem_cons.mp ((jsSortInsert_perm cmp x l).mem_iff.mp h)

theorem jsSortInsert_pairwise {α : Type} (cmp : α → α → Int)
    (htot : ∀ a b, cmp a b ≤ 0 ∨ cmp b a ≤ 0)
    (htrans : ∀ a b c, cmp a b ≤ 0 → cmp b c ≤ 0 → cmp a c ≤ 0)
    (x : α) (l : List α)
    (hl : l.Pairwise (fun a b => cmp a b ≤ 0)) :
    (jsSortInsert cmp x l).Pairwise (fun a b => cmp a b ≤ 0) := by
  induction l with
  | nil => simp [jsSortInsert]
  | cons y ys ih =>
    rw [List.pairwise_cons] at hl
    unfold jsSortInsert
    by_cases h : cmp y x ≤ 0
    · rw [if_pos h]
      rw [List.pairwise_cons]
      refine ⟨?_, ih hl.2⟩
      intro z hz
      rcases jsSortInsert_mem cmp x z ys hz with rfl | hz2
      · exact h
      · exact hl.1 z hz2
    · rw [if_neg h]
      rw [List.pairwise_cons]
      have hxy : cmp x y ≤ 0 := by
        rcases htot x y with h2 | h2
        · exact h2
        · exact absurd h2 h
      refine ⟨?_, List.pairwise_cons.mpr hl⟩
      intro z hz
      rcases List.mem_cons.mp hz with rfl | hz2
      · exact hxy
      · exact htrans x y z hxy (hl.1 z hz2)

theorem jsSort_pairwise {α : Type} (cmp : α → α → Int)
    (htot : ∀ a b, cmp a b ≤ 0 ∨ cmp b a ≤ 0)
    (htrans : ∀ a b c, cmp a b ≤ 0 → cmp b c ≤ 0 → cmp a c ≤ 0)
    (l : List α) :
    (jsSort cmp l).Pairwise (fun a b => cmp a b ≤ 0) := by
  suffices h : ∀ (l2 acc : List α),
      acc.Pairwise (fun a b => cmp a b ≤ 0) →
      (l2.foldl (fun a x => jsSortInsert cmp x a) acc).Pairwise
        (fun a b => cmp a b ≤ 0) from h l [] List.Pairwise.nil
  intro l2
  induction l2 with
  | nil => intro acc hacc; exact hacc
  | cons x xs ih =>
    intro acc hacc
    rw [List.foldl_cons]
    exact ih _ (jsSortInsert_pairwise cmp htot htrans x acc hacc)

theorem forall2_right_mem {α β : Type} {R : α → β → Prop} :
    ∀ {l1 : List α} {l2 : List β}, List.Forall₂ R l1 l2 →
      ∀ b ∈ l2, ∃ a ∈ l1, R a b := by
  intro l1 l2 h
  induction h with
  | nil => intro b hb; simp at hb
  | cons ha _ ih =>
    intro b hb
    rcases List.mem_cons.mp hb with rfl | hb2
    · exact ⟨_, List.mem_cons_self _ _, ha⟩
    · obtain ⟨a, hal, har⟩ := ih b hb2
      exact ⟨a, List.mem_cons_of_mem _ hal, har⟩

theorem forall2_pairwise {α β : Type} {R : α → β → Prop} {P : α → α → Prop}
    {Q : β → β → Prop}
    (hcomp : ∀ a a2 b b2, R a b → R a2 b2 → P a a2 → Q b b2) :
    ∀ {l1 : List α} {l2 : List β}, List.Forall₂ R l1 l2 →
      l1.Pairwise P → l2.Pairwise Q := by
  intro l1 l2 h
  induction h with
  | nil => intro _; exact List.Pairwise.nil
  | cons ha hrest ih =>
    intro hp
    rw [List.pairwise_cons] at hp ⊢
    refine ⟨?_, ih hp.2⟩
    intro b2 hb2
    obtain ⟨a2, ha2, hr2⟩ := forall2_right_mem hrest b2 hb2
    exact hcomp _ _ _ _ ha hr2 (hp.1 a2 ha2)

theorem mem_map_id_inj (l : List Record)
    (h : (l.map Record.id).Nodup) (r1 r2 : Record) (h1 : r1 ∈ l)
    (h2 : r2 ∈ l) (hid : r1.id = r2.id) : r1 = r2 := by
  induction l with
  | nil => simp at h1
  | cons x xs ih =>
    rw [List.map_cons, List.nodup_cons] at h
    rcases List.mem_cons.mp h1 with rfl | h1b
    · rcases List.mem_cons.mp h2 with rfl | h2b
      · rfl
      · exact absurd (by rw [hid]; exact List.mem_map_of_mem _ h2b) h.1
    · rcases List.mem_cons.mp h2 with rfl | h2b
      · exact absurd (by rw [← hid]; exact List.mem_map_of_mem _ h1b) h.1
      · exact ih h.2 h1b h2b

theorem fetchChunk_eq_getElem (net : Network) (n : Nat) (c : List Record)
    (h : net.fetchChunk n = some c) :
    ∃ (hlt : n - 1 < net.chunkFiles.length),
      net.chunkFiles[n - 1] = some c := by
  obtain ⟨h1, h2⟩ := fetchChunk_bounds net n c h
  unfold Network.fetchChunk at h
  rw [if_pos h1] at h
  have hlt : n - 1 < net.chunkFiles.length := by omega
  rw [List.getD_eq_getElem _ _ hlt] at h
  exact ⟨hlt, h⟩

/-- With globally unique record ids, two fetched records with the same id
are the same record. -/
theorem uniqueIds_record_eq (net : Network) (hU : UniqueIds net)
    {n1 n2 : Nat} {c1 c2 : List Record} {r1 r2 : Record}
    (h1 : net.fetchChunk n1 = some c1) (h2 : net.fetchChunk n2 = some c2)
    (hr1 : r1 ∈ c1) (hr2 : r2 ∈ c2) (hid : r1.id = r2.id) : r1 = r2 := by
  obtain ⟨hlt1, hg1⟩ := fetchChunk_eq_getElem net n1 c1 h1
  obtain ⟨hlt2, hg2⟩ := fetchChunk_eq_getElem net n2 c2 h2
  have hflat := List.nodup_flatten.mp hU
  have hlen : (net.chunkFiles.map
      (fun o => (o.getD []).map Record.id)).length
      = net.chunkFiles.length := List.length_map _ _
  have hlt1b : n1 - 1
      < (net.chunkFiles.map (fun o => (o.getD []).map Record.id)).length := by
    rw [hlen]; exact hlt1
  have hlt2b : n2 - 1
      < (net.chunkFiles.map (fun o => (o.getD []).map Record.id)).length := by
    rw [hlen]; exact hlt2
  have hL1 : (net.chunkFiles.map (fun o => (o.getD []).map Record.id))[n1 - 1]
      = c1.map Record.id := by
    rw [List.getElem_map, hg1]
    rfl
  have hL2 : (net.chunkFiles.map (fun o => (o.getD []).map Record.id))[n2 - 1]
      = c2.map Record.id := by
    rw [List.getElem_map, hg2]
    rfl
  by_cases heq : n1 - 1 = n2 - 1
  · have hq1 : net.chunkFiles[n1 - 1]? = some (some c1) := by
      rw [List.getElem?_eq_getElem hlt1, hg1]
    have hq2 : net.chunkFiles[n2 - 1]? = some (some c2) := by
      rw [List.getElem?_eq_getElem hlt2, hg2]
    rw [heq] at hq1
    rw [hq2] at hq1
    have hc12 : c1 = c2 := by
      injection hq1 with h3
      injection h3 with h4
      exact h4.symm
    subst hc12
    have hmemL : c1.map Record.id
        ∈ net.chunkFiles.map (fun o => (o.getD []).map Record.id) := by
      rw [← hL1]
      exact List.getElem_mem _
    exact mem_map_id_inj c1 (hflat.1 _ hmemL) r1 r2 hr1 hr2 hid
  · exfalso
    have hpw := hflat.2
    rw [List.pairwise_iff_getElem] at hpw
    have hid1 : r1.id ∈ c1.map Record.id := List.mem_map_of_mem _ hr1
    have hid2 : r2.id ∈ c2.map Record.id := List.mem_map_of_mem _ hr2
    rcases Nat.lt_or_ge (n1 - 1) (n2 - 1) with hlt | hge
    · have hdis := hpw (n1 - 1) (n2 - 1) hlt1b hlt2b hlt
      rw [hL1, hL2] at hdis
      exact hdis hid1 (hid ▸ hid2)
    · have hltc : n2 - 1 < n1 - 1 := by omega
      have hdis := hpw (n2 - 1) (n1 - 1) hlt2b hlt1b hltc
      rw [hL1, hL2] at hdis
      exact hdis hid2 (hid ▸ hid1)

theorem searchCandidates_sound (net : Network) (s : APIState)
    (query : String) (hC : Coherent net s) (m : RecordMetadata)
    (hm : m ∈ searchCandidates s query) :
    provenMetaB net m = true
      ∧ (jsMapGet s.iconToChunk m.id).isSome = true := by
  obtain ⟨id0, hg⟩ := searchCandidates_mem s query m hm
  have hpm := jsMapGet_mem _ _ _ hg
  obtain ⟨hid, hsome, hpv⟩ := hC.2.2.2 _ hpm
  refine ⟨hpv, ?_⟩
  rw [hid]
  exact hsome

/-- Under coherence and globally unique ids, resolving a candidate whose
metadata is the projection of some chunk record returns exactly that
record, in full. -/
theorem getFullIconData_resolves (net : Network) (s : APIState)
    (m : RecordMetadata) (hU : UniqueIds net) (hC : Coherent net s)
    (hpv : provenMetaB net m = true)
    (hloc : (jsMapGet s.iconToChunk m.id).isSome = true) :
    ∃ r, (getFullIconData net.fetchChunk s m.id).1 = some (IconData.full r)
      ∧ metadataOf r = m
      ∧ Coherent net (getFullIconData net.fetchChunk s m.id).2
      ∧ ∀ id2, (jsMapGet s.iconToChunk id2).isSome = true →
          (jsMapGet (getFullIconData net.fetchChunk s m.id).2.iconToChunk
            id2).isSome = true := by
  obtain ⟨n, hg⟩ := Option.isSome_iff_exists.mp hloc
  obtain ⟨hn, hhas⟩ := hC.1 (m.id, n) (jsMapGet_mem _ _ _ hg)
  have hfast := getFullIconData_fastpath net.fetchChunk s m.id n hg hn
  obtain ⟨c, hf, hr⟩ := chunkHasIdB_elim net.fetchChunk n m.id hhas
  have hload := loadChunk_of_fetch_some net s n c hC.2.1 hf
  obtain ⟨r1, hfind, hid1, hrc1⟩ := find?_id_of_hasId c m.id hr
  obtain ⟨n0, c0, r0, hf0, hrc0, hm0⟩ := provenMetaB_elim net m hpv
  have hid0 : r0.id = m.id := by
    rw [← hm0]
    rfl
  have hr10 : r1 = r0 :=
    uniqueIds_record_eq net hU hf hf0 hrc1 hrc0 (by rw [hid1, hid0])
  refine ⟨r1, ?_, ?_, ?_, ?_⟩
  · rw [hfast]
    show ((loadChunk net.fetchChunk s n).1.find?
      (fun r => r.id == m.id)).map IconData.full = _
    rw [hload, hfind]
    rfl
  · rw [hr10]
    exact hm0
  · rw [hfast]
    exact loadChunk_coherent net s n hC hn
  · intro id2 h2
    rw [hfast]
    exact loadChunk_locator_isSome net.fetchChunk s n id2 h2

/-- Under coherence and unique ids, every provenant and located candidate
resolves, elementwise, to the full record projecting to it. -/
theorem resolveAll_complete (net : Network) (hU : UniqueIds net) :
    ∀ (ms : List RecordMetadata) (s : APIState), Coherent net s →
      (∀ m ∈ ms, provenMetaB net m = true
        ∧ (jsMapGet s.iconToChunk m.id).isSome = true) →
      List.Forall₂ (fun m d => ∃ r : Record, d = IconData.full r
        ∧ metadataOf r = m) ms (resolveAll net.fetchChunk s ms).1 := by
  intro ms
  induction ms with
  | nil => intro s _ _; exact List.Forall₂.nil
  | cons m rest ih =>
    intro s hC hcond
    obtain ⟨hpv, hloc⟩ := hcond m (List.mem_cons_self _ _)
    obtain ⟨r, hres1, hmeta, hcoh2, hmono⟩ :=
      getFullIconData_resolves net s m hU hC hpv hloc
    have hstep : resolveAll net.fetchChunk s (m :: rest)
        = match (getFullIconData net.fetchChunk s m.id).1 with
          | some icon =>
            (icon :: (resolveAll net.fetchChunk
                (getFullIconData net.fetchChunk s m.id).2 rest).1,
             (resolveAll net.fetchChunk
                (getFullIconData net.fetchChunk s m.id).2 rest).2)
          | none =>
            ((resolveAll net.fetchChunk
                (getFullIconData net.fetchChunk s m.id).2 rest).1,
             (resolveAll net.fetchChunk
                (getFullIconData net.fetchChunk s m.id).2 rest).2) := rfl
    rw [hstep]
    simp only [hres1]
    exact List.Forall₂.cons ⟨r, rfl, hmeta⟩
      (ih _ hcoh2 (fun m2 hm2 => ⟨(hcond m2 (List.mem_cons_of_mem _ hm2)).1,
        hmono m2.id (hcond m2 (List.mem_cons_of_mem _ hm2)).2⟩))

theorem searchResolve_eq (fetch : Nat → Option (List Record)) (s : APIState)
    (query : String) (limit : Nat) :
    searchResolve fetch s query limit
      = resolveAll fetch
          (loadChunksList fetch s (requiredChunksOf s
            ((searchCandidates s query).take limit))).2
          ((searchCandidates s query).take limit) := rfl

/-- Claim C3: for a raw query of length ≥ 2 whose candidate set fits in
`limit`, with the engine state coherent against the unchanged static files
(so every candidate's backing chunk is fetchable) and globally unique
record ids, `searchIcons` returns exactly one full record per candidate,
ordered so that records whose (lowercased) name contains the query precede
those whose name does not, with ties broken by ascending name length. -/
theorem C3_search_ordering (net : Network) (s : APIState) (q : String)
    (limit : Nat) (hU : UniqueIds net) (hC : Coherent net s)
    (hq : 2 ≤ q.data.length)
    (hk : (searchCandidates s (jsQuery q)).length ≤ limit) :
    ∃ rs s2, searchIcons net.fetchChunk s (some q) limit = (rs, s2)
      ∧ rs.length = (searchCandidates s (jsQuery q)).length
      ∧ (∀ d ∈ rs, ∃ r : Record, d = IconData.full r)
      ∧ rs.Pairwise (fun d d2 =>
          rankedBefore (jsQuery q) (dataName d) (dataName d2)) := by
  rw [searchIcons_run net.fetchChunk s limit q hq]
  rw [searchResolve_eq]
  rw [List.take_of_length_le hk]
  have hpos := requiredChunksOf_pos s (searchCandidates s (jsQuery q))
  have hC1 : Coherent net (loadChunksList net.fetchChunk s
      (requiredChunksOf s (searchCandidates s (jsQuery q)))).2 :=
    loadChunksList_coherent net _ s hC hpos
  have hconds : ∀ m ∈ searchCandidates s (jsQuery q),
      provenMetaB net m = true
        ∧ (jsMapGet (loadChunksList net.fetchChunk s
            (requiredChunksOf s (searchCandidates s (jsQuery q)))).2.iconToChunk
          m.id).isSome = true := by
    intro m hm
    obtain ⟨hpv, hsome⟩ := searchCandidates_sound net s (jsQuery q) hC m hm
    exact ⟨hpv, loadChunksList_locator_isSome _ _ _ _ hsome⟩
  have hfa := resolveAll_complete net hU (searchCandidates s (jsQuery q)) _
    hC1 hconds
  refine ⟨_, _, rfl, ?_, ?_, ?_⟩
  · exact hfa.length_eq.symm
  · intro d hd
    obtain ⟨m, _, r, rfl, _⟩ := forall2_right_mem hfa d hd
    exact ⟨r, rfl⟩
  · have hsorted : (searchCandidates s (jsQuery q)).Pairwise
        (fun a b => searchCmp (jsQuery q) a b ≤ 0) := by
      unfold searchCandidates
      exact jsSort_pairwise (searchCmp (jsQuery q))
        (searchCmp_le_total (jsQuery q)) (searchCmp_le_trans (jsQuery q)) _
    have hsorted2 : (searchCandidates s (jsQuery q)).Pairwise
        (fun a b => rankedBefore (jsQuery q) a.name b.name) :=
      hsorted.imp (fun h => (searchCmp_le_iff (jsQuery q) _ _).mp h)
    refine forall2_pairwise ?_ hfa hsorted2
    rintro a a2 b b2 ⟨r, rfl, hra⟩ ⟨r2, rfl, hra2⟩ hP
    have h1 : r.name = a.name := by rw [← hra]; rfl
    have h2 : r2.name = a2.name := by rw [← hra2]; rfl
    show rankedBefore (jsQuery q) (dataName (IconData.full r))
      (dataName (IconData.full r2))
    show rankedBefore (jsQuery q) r.name r2.name
    rw [h1, h2]
    exact hP

set_option maxRecDepth 40000 in
/-- Witness for C3: the spec's scenario — `home`, `home-outline`,
`homework` spread over two chunks, query `"home"`, limit 10 — returns all
three full records ordered `home`, `homework`, `home-outline`. -/
theorem C3_search_ordering_witness :
    (∃ rs s2, searchIcons netHome.fetchChunk stateHome (some "home") 10
        = (rs, s2)
      ∧ rs.length = (searchCandidates stateHome (jsQuery "home")).length
      ∧ (∀ d ∈ rs, ∃ r : Record, d = IconData.full r)
      ∧ rs.Pairwise (fun d d2 =>
          rankedBefore (jsQuery "home") (dataName d) (dataName d2)))
    ∧ (searchIcons netHome.fetchChunk stateHome (some "home") 10).1
        = [IconData.full recHome, IconData.full recHomework,
           IconData.full recHomeOutline]
    ∧ (searchCandidates stateHome (jsQuery "home")).length = 3 := by
  refine ⟨C3_search_ordering netHome stateHome "home" 10 (by decide)
    (by decide) (by decide) (by decide), by decide, by decide⟩
